import Mathlib

/-!
Verification development for the `badmerger` repository: a shallow embedding
of its typed field codec, schema model, record writer, streaming merge engine
and aggregator framework, together with theorems settling the specification
claims.  Go byte slices are modelled as `List Nat` (each element a byte value
below 256), Go machine integers as `Int` with explicit wrapping modulo `2^w`,
Go dynamic values (`any`) as the closed inductive `Val`, Go maps
(`map[string]any`) as association lists observed through lookup, and Go
runtime panics as `Option.none` results.
-/

namespace Badmerger

/-- A byte, as stored in a Go `[]byte`.  Values produced by the encoders are
always below 256. -/
abbrev Byte := Nat

/-- A Go byte slice. -/
abbrev Bytes := List Nat

/-- Reinterpret an unsigned `w`-bit value as a signed two's-complement
integer, as a Go conversion such as `int16(u)` does. -/
def toSigned (w : Nat) (m : Nat) : Int :=
  if m % 2 ^ w < 2 ^ (w - 1) then (m % 2 ^ w : Int) else (m % 2 ^ w : Int) - 2 ^ w

/-- Truncate an integer into `w`-bit two's-complement, the effect of a Go
conversion such as `int16(x)` applied to a wider value. -/
def wrapSigned (w : Nat) (x : Int) : Int :=
  toSigned w (x.emod (2 ^ w)).toNat

/-- Big-endian byte string of a natural number at a fixed width in bytes:
the layout written by `binary.BigEndian.PutUintN` after Go's unsigned
truncation of the input. -/
def beBytes : Nat → Nat → Bytes
  | 0, _ => []
  | w + 1, m => (m / 2 ^ (8 * w)) % 256 :: beBytes w (m % 2 ^ (8 * w))

/-- Recombine a big-endian byte string into a natural number, as
`binary.BigEndian.UintN` does. -/
def beVal (b : Bytes) : Nat :=
  b.foldl (fun acc x => acc * 256 + x) 0

/-- Strict byte-lexicographic comparison, the order `bytes.Compare` (and the
stores' key iteration) uses: compare bytes left to right, a strict prefix
sorting before its extensions. -/
def lexLt : Bytes → Bytes → Bool
  | [], [] => false
  | [], _ :: _ => true
  | _ :: _, [] => false
  | a :: as, b :: bs => if a < b then true else if a = b then lexLt as bs else false

/-- Non-strict byte-lexicographic order. -/
def lexLe (x y : Bytes) : Prop := lexLt x y = true ∨ x = y

/-- The dynamic value model: the Go `any` values that flow through the
system.  Integer constructors record the Go dynamic type (`int8`, `int16`,
`int32`, `int64`, `int`); `vstr` carries a string's bytes; `vjraw` stands for
the dynamic value `encoding/json.Unmarshal` produces from the given bytes;
`vtally` is the `map[string]int64` a tally aggregation yields; `vnull` is Go
`nil`. -/
inductive Val where
  | vi8 (n : Int)
  | vi16 (n : Int)
  | vi32 (n : Int)
  | vi64 (n : Int)
  | vint (n : Int)
  | vstr (s : Bytes)
  | vjraw (b : Bytes)
  | vtally (m : List (String × Int))
  | vnull
  deriving DecidableEq, Repr

/-- The numeric view an encoder's or aggregator's type switch accepts:
`Some` exactly for the five Go integer types, `none` for everything that
falls into the `default` branch. -/
def numOf : Val → Option Int
  | .vi8 n => some n
  | .vi16 n => some n
  | .vi32 n => some n
  | .vi64 n => some n
  | .vint n => some n
  | _ => none

/-- A Go `map[string]any` record, observed through `recGet`. -/
abbrev Rec := List (String × Val)

/-- Map assignment `m[k] = v`: the newest binding shadows older ones. -/
def recSet (r : Rec) (k : String) (v : Val) : Rec := (k, v) :: r

/-- Map read `m[k]` with presence flag. -/
def recGet (r : Rec) (k : String) : Option Val := r.lookup k

/-- Map deletion `delete(m, k)`. -/
def recDel (r : Rec) (k : String) : Rec := r.filter (fun p => ¬ p.1 = k)

/-- The supported field kinds of `chooseEncoder`. -/
inductive Kind where
  | i8 | i16 | i32 | i64 | str | json
  deriving DecidableEq, Repr

/-- Width in bytes of a fixed-width integer kind. -/
def Kind.width : Kind → Nat
  | .i8 => 1
  | .i16 => 2
  | .i32 => 4
  | .i64 => 8
  | _ => 0

/-- `toInt8Binary` … `toInt64Binary`: truncate any numeric input to the
target width (an unrecognised dynamic type encodes as zero) and lay it out
big-endian. -/
def toIntBinary (w : Nat) (v : Val) : Bytes :=
  beBytes w (((numOf v).getD 0).emod (2 ^ (8 * w))).toNat

/-- `fromInt8Binary` … `fromInt64Binary`: read `w` big-endian bytes as a
signed integer; reading past the end of the slice is a panic (`none`). -/
def fromIntBinary (w : Nat) (mk : Int → Val) (b : Bytes) : Option (Val × Nat) :=
  if w ≤ b.length then some (mk (toSigned (8 * w) (beVal (b.take w))), w) else none

/-- The string bytes a value contributes in `toStringBinary`: any non-string
dynamic type falls to the `default` branch and is treated as `""`. -/
def strOf : Val → Bytes
  | .vstr s => s
  | _ => []

/-- `toStringBinary`: 2-byte big-endian length prefix (the length truncated
to `uint16` by `toInt16Binary`) followed by the whole string bytes. -/
def toStringBinary (v : Val) : Bytes :=
  beBytes 2 ((strOf v).length % 2 ^ 16) ++ strOf v

/-- The body bytes `json.Marshal` produces for a value.  `encoding/json` is
an external collaborator; this model serialises the `Val` constructors
directly and is used only through the length-prefix layer. -/
def jsonBody : Val → Bytes
  | .vnull => [110, 117, 108, 108]
  | .vstr s => 34 :: s ++ [34]
  | .vi8 n => (toString n).toList.map Char.toNat
  | .vi16 n => (toString n).toList.map Char.toNat
  | .vi32 n => (toString n).toList.map Char.toNat
  | .vi64 n => (toString n).toList.map Char.toNat
  | .vint n => (toString n).toList.map Char.toNat
  | .vjraw b => b
  | .vtally m => m.foldl (fun acc p => acc ++ (toString p.2).toList.map Char.toNat) []

/-- `toJsonBinary`: 2-byte truncated length prefix followed by the
serialised body. -/
def toJsonBinary (v : Val) : Bytes :=
  beBytes 2 ((jsonBody v).length % 2 ^ 16) ++ jsonBody v

/-- Common decode path of `fromStringBinary` and `fromJsonBinary`: read the
2-byte prefix, reinterpret it as a **signed** `int16` `l`, form
`limit := 2 + l` in wrapping 16-bit arithmetic, and slice `b[2:limit]`;
a slice out of range is a panic (`none`).  On success the consumed length is
`limit`. -/
def fromPrefixed (mk : Bytes → Val) (b : Bytes) : Option (Val × Nat) :=
  match b with
  | b0 :: b1 :: _ =>
    let l : Int := toSigned 16 (b0 * 256 + b1)
    let limit : Int := wrapSigned 16 (2 + l)
    if 2 ≤ limit ∧ limit ≤ (b.length : Int) then
      some (mk ((b.drop 2).take (limit.toNat - 2)), limit.toNat)
    else none
  | _ => none

/-- `fromStringBinary`. -/
def fromStringBinary (b : Bytes) : Option (Val × Nat) :=
  fromPrefixed (fun s => .vstr s) b

/-- `fromJsonBinary`. -/
def fromJsonBinary (b : Bytes) : Option (Val × Nat) :=
  fromPrefixed (fun s => .vjraw s) b

/-- The encoder `chooseEncoder` binds to each kind. -/
def encodeK : Kind → Val → Bytes
  | .i8, v => toIntBinary 1 v
  | .i16, v => toIntBinary 2 v
  | .i32, v => toIntBinary 4 v
  | .i64, v => toIntBinary 8 v
  | .str, v => toStringBinary v
  | .json, v => toJsonBinary v

/-- The decoder `chooseEncoder` binds to each kind. -/
def decodeK : Kind → Bytes → Option (Val × Nat)
  | .i8, b => fromIntBinary 1 .vi8 b
  | .i16, b => fromIntBinary 2 .vi16 b
  | .i32, b => fromIntBinary 4 .vi32 b
  | .i64, b => fromIntBinary 8 .vi64 b
  | .str, b => fromStringBinary b
  | .json, b => fromJsonBinary b

end Badmerger

namespace Badmerger

/-- The bitmask width `open` computes at store construction:
`len(values)/8 + 1` (integer division). -/
def masksWidth (n : Nat) : Nat := n / 8 + 1

/-- Modelled from the spec's words for comparison: "`ceil(value_field_count
/ 8)` bytes (at least 1 byte even with zero value fields)". -/
def specMaskWidth (n : Nat) : Nat := max ((n + 7) / 8) 1

theorem beBytes_length : ∀ (w m : Nat), (beBytes w m).length = w
  | 0, _ => rfl
  | w + 1, m => by simp [beBytes, beBytes_length w]

theorem beVal_beBytes2 (m : Nat) (h : m < 2 ^ 16) : beVal (beBytes 2 m) = m := by
  simp only [beBytes, beVal, List.foldl]
  norm_num
  omega

theorem beBytes_lt_mono : ∀ (w m1 m2 : Nat), m1 < m2 → m2 < 2 ^ (8 * w) →
    lexLt (beBytes w m1) (beBytes w m2) = true := by
  intro w
  induction w with
  | zero =>
    intro m1 m2 h1 h2
    simp only [Nat.mul_zero, pow_zero] at h2
    omega
  | succ w ih =>
    intro m1 m2 h1 h2
    have hB : 0 < 2 ^ (8 * w) := Nat.two_pow_pos _
    have hpow : 2 ^ (8 * (w + 1)) = 2 ^ (8 * w) * 256 := by
      rw [Nat.mul_succ, pow_add]
      norm_num
    have hd2 : m2 / 2 ^ (8 * w) < 256 := by
      rw [Nat.div_lt_iff_lt_mul hB]
      rw [hpow] at h2
      omega
    have hd1 : m1 / 2 ^ (8 * w) < 256 := by
      rw [Nat.div_lt_iff_lt_mul hB]
      rw [hpow] at h2
      omega
    have hdle : m1 / 2 ^ (8 * w) ≤ m2 / 2 ^ (8 * w) :=
      Nat.div_le_div_right (le_of_lt h1)
    rcases Nat.lt_or_ge (m1 / 2 ^ (8 * w)) (m2 / 2 ^ (8 * w)) with hlt | hge
    · simp [beBytes, lexLt, Nat.mod_eq_of_lt hd1, Nat.mod_eq_of_lt hd2, hlt]
    · have heq : m1 / 2 ^ (8 * w) = m2 / 2 ^ (8 * w) := le_antisymm hdle hge
      have hm : m1 % 2 ^ (8 * w) < m2 % 2 ^ (8 * w) := by
        have e1 := Nat.div_add_mod m1 (2 ^ (8 * w))
        have e2 := Nat.div_add_mod m2 (2 ^ (8 * w))
        rw [heq] at e1
        omega
      have hmb : m2 % 2 ^ (8 * w) < 2 ^ (8 * w) := Nat.mod_lt _ hB
      simp [beBytes, lexLt, heq, ih _ _ hm hmb]

end Badmerger

namespace Badmerger

/-- C3 (amended): fixed-width big-endian two's-complement encoding is
strictly monotone under byte-lexicographic comparison for two integers of
the same sign at the same width; mixed signs break it (see the
counterexample), because a negative value encodes with its sign bit set and
sorts above every non-negative value. -/
theorem c3_theorem (w : Nat) (v1 v2 : Val) (a b : Int) (hw : 0 < w)
    (h1 : numOf v1 = some a) (h2 : numOf v2 = some b) (hab : a < b)
    (ha : -(2 ^ (8 * w - 1)) ≤ a) (hb : b < 2 ^ (8 * w - 1))
    (hsign : 0 ≤ a ∨ b < 0) :
    lexLt (toIntBinary w v1) (toIntBinary w v2) = true := by
  unfold toIntBinary
  rw [h1, h2]
  simp only [Option.getD_some]
  have hc : ((2 ^ (8 * w) : Nat) : Int) = 2 ^ (8 * w) := by push_cast; ring
  have hhalf : (2 : Int) ^ (8 * w) = 2 ^ (8 * w - 1) * 2 := by
    rw [← pow_succ]
    congr 1
    omega
  have hhpos : (0 : Int) < 2 ^ (8 * w - 1) := by positivity
  have hBpos : (0 : Int) < 2 ^ (8 * w) := by positivity
  rcases hsign with hpos | hneg
  · have ea : a.emod (2 ^ (8 * w)) = a := Int.emod_eq_of_lt hpos (by omega)
    have eb : b.emod (2 ^ (8 * w)) = b := Int.emod_eq_of_lt (by omega) (by omega)
    rw [ea, eb]
    apply beBytes_lt_mono <;> omega
  · have ea : a.emod (2 ^ (8 * w)) = a + 2 ^ (8 * w) := by
      have h : (a + 2 ^ (8 * w)).emod (2 ^ (8 * w)) = a.emod (2 ^ (8 * w)) := by
        have h0 := Int.add_mul_emod_self_left (a := a) (b := (2 : Int) ^ (8 * w)) (c := 1)
        rw [mul_one] at h0
        exact h0
      rw [← h]
      exact Int.emod_eq_of_lt (by omega) (by omega)
    have eb : b.emod (2 ^ (8 * w)) = b + 2 ^ (8 * w) := by
      have h : (b + 2 ^ (8 * w)).emod (2 ^ (8 * w)) = b.emod (2 ^ (8 * w)) := by
        have h0 := Int.add_mul_emod_self_left (a := b) (b := (2 : Int) ^ (8 * w)) (c := 1)
        rw [mul_one] at h0
        exact h0
      rw [← h]
      exact Int.emod_eq_of_lt (by omega) (by omega)
    rw [ea, eb]
    apply beBytes_lt_mono <;> omega

/-- C3 counterexample: the claim as stated fails at width 1 for
`a = -1 < b = 0`: `encode(-1) = [0xFF]` is byte-lexicographically greater
than `encode(0) = [0x00]`. -/
theorem c3_counterexample :
    ((-1 : Int) < 0) ∧ lexLt (encodeK .i8 (.vi8 (-1))) (encodeK .i8 (.vi8 0)) = false := by
  decide

/-- C3 witness: the amended theorem applied at width 1 to `3 < 7`. -/
theorem c3_witness :
    (0 < 1 ∧ (3 : Int) < 7 ∧ -(2 ^ (8 * 1 - 1) : Int) ≤ 3 ∧ (7 : Int) < 2 ^ (8 * 1 - 1) ∧ (0 : Int) ≤ 3) ∧
      lexLt (toIntBinary 1 (.vi8 3)) (toIntBinary 1 (.vi8 7)) = true :=
  ⟨by norm_num, c3_theorem 1 (.vi8 3) (.vi8 7) 3 7 (by decide) rfl rfl (by decide)
    (by decide) (by decide) (Or.inl (by decide))⟩

/-- C4 counterexample: at 8 value fields the code computes a 2-byte
bitmask while `ceil(8/8)` (at least 1) is 1 byte. -/
theorem c4_counterexample : masksWidth 8 ≠ specMaskWidth 8 := by decide

/-- C4 (amended): the bitmask width computed at store construction is
`floor(N/8) + 1` bytes: always at least 1, equal to the spec's
`max(ceil(N/8), 1)` except when `N` is a positive multiple of 8, where it
is one byte larger. -/
theorem c4_theorem (n : Nat) :
    1 ≤ masksWidth n ∧
      masksWidth n =
        (if n % 8 = 0 ∧ n ≠ 0 then specMaskWidth n + 1 else specMaskWidth n) := by
  simp only [masksWidth, specMaskWidth, Nat.max_def]
  split_ifs <;> omega

/-- C8 counterexample: encoding a 65,536-byte string does not fail: the
encoder silently emits the length prefix `[0, 0]` (65,536 mod 2^16)
followed by the entire contents. -/
theorem c8_counterexample :
    toStringBinary (.vstr (List.replicate 65536 97)) = 0 :: 0 :: List.replicate 65536 97 := by
  simp only [toStringBinary, strOf, List.length_replicate]
  norm_num [beBytes]

/-- C8 (amended): the string encoder never fails; for every string it
emits a 2-byte prefix holding the length modulo 2^16 followed by the whole
contents, silently truncating the prefix for strings longer than 65,535
bytes. -/
theorem c8_theorem (s : Bytes) :
    (toStringBinary (.vstr s)).length = 2 + s.length ∧
    beVal ((toStringBinary (.vstr s)).take 2) = s.length % 2 ^ 16 ∧
    (toStringBinary (.vstr s)).drop 2 = s := by
  have h2 : (beBytes 2 (s.length % 2 ^ 16)).length = 2 := beBytes_length 2 _
  refine ⟨?_, ?_, ?_⟩
  · simp [toStringBinary, strOf, beBytes_length]
  · rw [toStringBinary]
    simp only [strOf]
    rw [List.take_left' h2]
    exact beVal_beBytes2 _ (Nat.mod_lt _ (by norm_num))
  · rw [toStringBinary]
    simp only [strOf]
    exact List.drop_left' h2

/-- A length-prefixed decode whose wrapped 16-bit `limit` falls below 2
panics on the slice `b[2:limit]`. -/
theorem fromPrefixed_neg_limit (mk : Bytes → Val) (b0 b1 : Nat) (rest : Bytes)
    (h : wrapSigned 16 (2 + toSigned 16 (b0 * 256 + b1)) < 2) :
    fromPrefixed mk (b0 :: b1 :: rest) = none := by
  simp only [fromPrefixed]
  rw [if_neg]
  intro hcon
  exact absurd hcon.1 (not_le.mpr h)

/-- C2 (code bug): round-trip fails inside the declared 65,535-byte
limit.  For a 32,766-byte string the encoder writes the unsigned prefix
`[0x7F, 0xFE]`, but the decoder reads it as a signed `int16` and computes
`limit = 2 + 32766` in wrapping 16-bit arithmetic, i.e. `-32768`, so the
slice `b[2:limit]` panics instead of returning the string. -/
theorem c2_failing :
    fromStringBinary (toStringBinary (.vstr (List.replicate 32766 97))) = none := by
  have hlen : (List.replicate 32766 97).length = 32766 := List.length_replicate 32766 97
  have hbe : beBytes 2 (32766 % 2 ^ 16) = [127, 254] := by decide
  have hb : toStringBinary (.vstr (List.replicate 32766 97)) =
      127 :: 254 :: List.replicate 32766 97 := by
    simp only [toStringBinary, strOf]
    rw [hlen, hbe]
    rfl
  rw [hb]
  exact fromPrefixed_neg_limit _ 127 254 _ (by decide)

end Badmerger

namespace Badmerger

/-- Aggregation operators selectable through `chooseAggregator`. -/
inductive AggOp where
  | first | firstNotNull | minA | maxA | sum | count | countDistinct | tally
  deriving DecidableEq, Repr

/-- The string key `fmt.Sprintf("%v", val)` produces for a tally entry:
decimal for the integer types, the contents for a string.  The remaining
constructors never occur as tally inputs in practice; the model renders them
deterministically. -/
def goString : Val → String
  | .vi8 n => toString n
  | .vi16 n => toString n
  | .vi32 n => toString n
  | .vi64 n => toString n
  | .vint n => toString n
  | .vstr s => String.mk (s.map Char.ofNat)
  | .vjraw b => String.mk (b.map Char.ofNat)
  | .vtally m => toString (m.map Prod.fst)
  | .vnull => "<nil>"

/-- One `seen[valStr] = times + 1` step of `tally.on`, on a Go map modelled
as an insertion-ordered association list with unique keys. -/
def tallyBump (seen : List (String × Int)) (k : String) : List (String × Int) :=
  match seen.lookup k with
  | some t => seen.map (fun p => if p.1 = k then (p.1, t + 1) else p)
  | none => seen ++ [(k, 1)]

/-- `first.on`: the field of the first record, or nil on an empty group. -/
def firstOn (src : String) (col : List Rec) : Val :=
  match col with
  | [] => .vnull
  | r :: _ => (recGet r src).getD .vnull

/-- `firstNotNull.on`: first present non-nil occurrence, else nil. -/
def firstNotNullOn (src : String) : List Rec → Val
  | [] => .vnull
  | r :: rest =>
    match recGet r src with
    | some v => if v = .vnull then firstNotNullOn src rest else v
    | none => firstNotNullOn src rest

/-- The running minimum of `min.on`, `none` while no integer-typed
occurrence has been seen (the `first` flag in the source). -/
def minFold (src : String) (col : List Rec) : Option Int :=
  col.foldl (fun acc r =>
    match (recGet r src).bind numOf with
    | none => acc
    | some v =>
      match acc with
      | none => some v
      | some m => some (if v < m then v else m)) none

/-- `min.on`. -/
def minOn (src : String) (col : List Rec) : Val :=
  if col.isEmpty then .vnull
  else
    match minFold src col with
    | none => .vnull
    | some m => .vi64 m

/-- The running maximum of `max.on`. -/
def maxFold (src : String) (col : List Rec) : Option Int :=
  col.foldl (fun acc r =>
    match (recGet r src).bind numOf with
    | none => acc
    | some v =>
      match acc with
      | none => some v
      | some m => some (if v > m then v else m)) none

/-- `max.on`. -/
def maxOn (src : String) (col : List Rec) : Val :=
  if col.isEmpty then .vnull
  else
    match maxFold src col with
    | none => .vnull
    | some m => .vi64 m

/-- `sum.on`: wrapping 64-bit sum over the integer-typed occurrences. -/
def sumOn (src : String) (col : List Rec) : Val :=
  .vi64 (col.foldl (fun total r =>
    match (recGet r src).bind numOf with
    | none => total
    | some v => wrapSigned 64 (total + v)) 0)

/-- `count.on`: how many records have the field present (nil included). -/
def countOn (src : String) (col : List Rec) : Val :=
  .vi64 (col.foldl (fun total r =>
    if (recGet r src).isSome then wrapSigned 64 (total + 1) else total) 0)

/-- `count_distinct.on`: the number of distinct non-nil values, the Go
`map[any]struct{}` modelled as a duplicate-free insertion list. -/
def countDistinctOn (src : String) (col : List Rec) : Val :=
  .vi64 ((col.foldl (fun seen r =>
    match recGet r src with
    | some v => if v ≠ .vnull ∧ v ∉ seen then seen ++ [v] else seen
    | none => seen) ([] : List Val)).length)

/-- `tally.on`: occurrence counts of the string rendering of each non-nil
present value. -/
def tallyOn (src : String) (col : List Rec) : Val :=
  .vtally (col.foldl (fun seen r =>
    match recGet r src with
    | some v => if v = .vnull then seen else tallyBump seen (goString v)
    | none => seen) [])

/-- Dispatch from operator to reduction, as the bound `aggregator.on`. -/
def aggOn : AggOp → String → List Rec → Val
  | .first, s, col => firstOn s col
  | .firstNotNull, s, col => firstNotNullOn s col
  | .minA, s, col => minOn s col
  | .maxA, s, col => maxOn s col
  | .sum, s, col => sumOn s col
  | .count, s, col => countOn s col
  | .countDistinct, s, col => countDistinctOn s col
  | .tally, s, col => tallyOn s col

/-- A `namedAggregation`: output name, operator and source field. -/
structure NamedAgg where
  outName : String
  op : AggOp
  src : String
  deriving DecidableEq, Repr

/-- The body of `Merger.Merge` on a non-nil key map: write every aggregation
result into the key map under its output name and return the map. -/
def mergeRec (aggs : List NamedAgg) (keyValue : Rec) (vals : List Rec) : Rec :=
  aggs.foldl (fun acc a => recSet acc a.outName (aggOn a.op a.src vals)) keyValue

/-- `Merger.Merge` including the Go nil-map cases: `keyValue = none` models
the nil `lastKeyMap`; writing into a nil map is a runtime panic (`none`
result), while with no aggregations the nil map is returned and behaves as an
empty record. -/
def mergeGo (aggs : List NamedAgg) (keyValue : Option Rec) (vals : List Rec) : Option Rec :=
  match keyValue with
  | some r => some (mergeRec aggs r vals)
  | none => if aggs.isEmpty then some [] else none

/-- The literal group collection of the aggregator-semantics scenario:
`[{"x":3},{"x":null},{"x":7}]`. -/
def col6 : List Rec := [[("x", Val.vint 3)], [("x", Val.vnull)], [("x", Val.vint 7)]]

end Badmerger

namespace Badmerger

/-- C6: on the group collection `[{"x":3},{"x":null},{"x":7}]` the
aggregators yield `sum = 10`, `count = 3` (the null occurrence counts as
present), `count_distinct = 2`, `min = 3`, `max = 7`, `first = 3`,
`first_not_null = 3`, and `tally` maps `"3"` and `"7"` to one occurrence
each, the null occurrence excluded. -/
theorem c6_theorem :
    sumOn "x" col6 = .vi64 10 ∧
    countOn "x" col6 = .vi64 3 ∧
    countDistinctOn "x" col6 = .vi64 2 ∧
    minOn "x" col6 = .vi64 3 ∧
    maxOn "x" col6 = .vi64 7 ∧
    firstOn "x" col6 = .vint 3 ∧
    firstNotNullOn "x" col6 = .vint 3 ∧
    tallyOn "x" col6 = .vtally [("3", 1), ("7", 1)] := by
  decide

/-- C10: `Merger.Merge` writes each aggregation result into the decoded
partial-key map under its output name and returns that map: a key that is
not an aggregation output name reads back unchanged, and a key that is an
output name reads the last such aggregation's result, overwriting any
decoded key field of the same name. -/
theorem c10_theorem (aggs : List NamedAgg) (r : Rec) (vals : List Rec) (k : String) :
    recGet (mergeRec aggs r vals) k =
      match aggs.reverse.find? (fun a => a.outName == k) with
      | some a => some (aggOn a.op a.src vals)
      | none => recGet r k := by
  induction aggs generalizing r with
  | nil => simp [mergeRec]
  | cons a as ih =>
    have hstep : mergeRec (a :: as) r vals =
        mergeRec as (recSet r a.outName (aggOn a.op a.src vals)) vals := rfl
    rw [hstep, ih]
    rw [List.reverse_cons, List.find?_append]
    cases hfind : as.reverse.find? (fun x => x.outName == k) with
    | some b => simp [hfind]
    | none =>
      simp only [hfind, Option.none_orElse]
      by_cases hk : a.outName = k
      · simp [recGet, recSet, List.lookup, hk]
      · have hbeq : (a.outName == k) = false := beq_eq_false_iff_ne.mpr hk
        have hbeq2 : (k == a.outName) = false := beq_eq_false_iff_ne.mpr (Ne.symm hk)
        simp [recGet, recSet, List.lookup, hbeq, hbeq2, List.find?]

end Badmerger

namespace Badmerger

structure Field where
  name : String
  kind : Kind
  deriving DecidableEq, Repr

def goodVal (k : Kind) (v : Val) : Prop :=
  decodeK k (encodeK k v) = some (v, (encodeK k v).length)

instance (k : Kind) (v : Val) : Decidable (goodVal k v) := by
  unfold goodVal
  infer_instance

theorem fromPrefixed_pos (mk : Bytes → Val) (b : Bytes) (v : Val) (s : Nat)
    (h : fromPrefixed mk b = some (v, s)) : 2 ≤ s ∧ s ≤ b.length := by
  match b with
  | [] => simp [fromPrefixed] at h
  | [b0] => simp [fromPrefixed] at h
  | b0 :: b1 :: rest =>
    simp only [fromPrefixed] at h
    split at h
    case isTrue hc =>
      rw [Option.some.injEq, Prod.mk.injEq] at h
      obtain ⟨hv, hs⟩ := h
      obtain ⟨h1, h2⟩ := hc
      simp only [List.length_cons] at h2 ⊢
      omega
    case isFalse => exact absurd h (by simp)

theorem fromIntBinary_pos (w : Nat) (mk : Int → Val) (b : Bytes) (v : Val) (s : Nat)
    (hw : 1 ≤ w) (h : fromIntBinary w mk b = some (v, s)) : 1 ≤ s ∧ s ≤ b.length := by
  simp only [fromIntBinary] at h
  split at h
  case isTrue hc =>
    rw [Option.some.injEq, Prod.mk.injEq] at h
    obtain ⟨hv, hs⟩ := h
    omega
  case isFalse => exact absurd h (by simp)

theorem decodeK_pos (k : Kind) (b : Bytes) (v : Val) (s : Nat)
    (h : decodeK k b = some (v, s)) : 1 ≤ s ∧ s ≤ b.length := by
  cases k with
  | i8 => exact fromIntBinary_pos 1 _ b v s (by norm_num) h
  | i16 => exact fromIntBinary_pos 2 _ b v s (by norm_num) h
  | i32 => exact fromIntBinary_pos 4 _ b v s (by norm_num) h
  | i64 => exact fromIntBinary_pos 8 _ b v s (by norm_num) h
  | str =>
    have := fromPrefixed_pos _ b v s h
    omega
  | json =>
    have := fromPrefixed_pos _ b v s h
    omega

theorem fromIntBinary_extend (w : Nat) (mk : Int → Val) (b b2 : Bytes) (v : Val) (s : Nat)
    (h : fromIntBinary w mk b = some (v, s)) :
    fromIntBinary w mk (b.take s ++ b2) = some (v, s) := by
  simp only [fromIntBinary] at h
  split at h
  case isTrue hc =>
    rw [Option.some.injEq, Prod.mk.injEq] at h
    obtain ⟨hv, hsw⟩ := h
    subst hsw
    have hlen : (b.take w).length = w := by
      rw [List.length_take]
      omega
    have htake : (b.take w ++ b2).take w = b.take w := List.take_left' hlen
    simp only [fromIntBinary, List.length_append, hlen, htake]
    rw [if_pos (by omega)]
    rw [hv]
  case isFalse => exact absurd h (by simp)

theorem fromPrefixed_extend (mk : Bytes → Val) (b b2 : Bytes) (v : Val) (s : Nat)
    (h : fromPrefixed mk b = some (v, s)) :
    fromPrefixed mk (b.take s ++ b2) = some (v, s) := by
  match b with
  | [] => simp [fromPrefixed] at h
  | [b0] => simp [fromPrefixed] at h
  | b0 :: b1 :: rest =>
    simp only [fromPrefixed] at h
    split at h
    case isFalse => exact absurd h (by simp)
    case isTrue hc =>
      rw [Option.some.injEq, Prod.mk.injEq] at h
      obtain ⟨hv, hs⟩ := h
      obtain ⟨h1, h2⟩ := hc
      have hs2 : 2 ≤ s := by omega
      have hsl : s ≤ rest.length + 2 := by
        simp only [List.length_cons] at h2
        omega
      obtain ⟨t, rfl⟩ : ∃ t, s = t + 2 := ⟨s - 2, by omega⟩
      have htake : (b0 :: b1 :: rest).take (t + 2) = b0 :: b1 :: rest.take t := by
        simp [List.take_succ_cons]
      have hlen2 : (rest.take t).length = t := by
        rw [List.length_take]
        omega
      have htake2 : (rest.take t ++ b2).take t = rest.take t := List.take_left' hlen2
      rw [htake]
      simp only [List.cons_append, fromPrefixed, List.length_cons, List.length_append, hlen2]
      rw [if_pos ⟨h1, by push_cast; omega⟩]
      simp only [List.drop_succ_cons, List.drop_zero] at hv ⊢
      rw [hs, Nat.add_sub_cancel, htake2]
      rw [hs, Nat.add_sub_cancel] at hv
      rw [hv]

end Badmerger

namespace Badmerger

def bitGet (bs : Bytes) (i : Nat) : Bool :=
  Nat.testBit (bs.getD (i / 8) 0) (7 - i % 8)

def setBitAt (bs : Bytes) (i : Nat) : Bytes :=
  bs.set (i / 8) ((bs.getD (i / 8) 0) ||| (1 <<< (7 - i % 8)))

theorem setBitAt_length (bs : Bytes) (i : Nat) : (setBitAt bs i).length = bs.length := by
  simp [setBitAt]

theorem bitGet_setBitAt_ne (bs : Bytes) (i j : Nat) (hne : i ≠ j) :
    bitGet (setBitAt bs j) i = bitGet bs i := by
  by_cases hb : i / 8 = j / 8
  · by_cases hlen : j / 8 < bs.length
    · have hget : (setBitAt bs j).getD (i / 8) 0 =
          (bs.getD (j / 8) 0) ||| (1 <<< (7 - j % 8)) := by
        rw [hb, List.getD_eq_getD_get?, setBitAt, List.get?_set_eq_of_lt _ hlen]
        rfl
      have hbit : 7 - i % 8 ≠ 7 - j % 8 := by omega
      rw [bitGet, hget, Nat.shiftLeft_eq, one_mul, Nat.testBit_lor,
        Nat.testBit_two_pow_of_ne (by omega), Bool.or_false, bitGet, hb]
    · have h1 : (setBitAt bs j).getD (i / 8) 0 = 0 := by
        apply List.getD_eq_default
        rw [setBitAt_length]
        omega
      have h2 : bs.getD (i / 8) 0 = 0 := by
        apply List.getD_eq_default
        omega
      rw [bitGet, bitGet, h1, h2]
  · have hget : (setBitAt bs j).getD (i / 8) 0 = bs.getD (i / 8) 0 := by
      rw [List.getD_eq_getD_get?, setBitAt, List.get?_set_ne _ _ (Ne.symm hb),
        ← List.getD_eq_getD_get?]
    rw [bitGet, hget, bitGet]

theorem bitGet_setBitAt_self (bs : Bytes) (j : Nat) (hlen : j / 8 < bs.length) :
    bitGet (setBitAt bs j) j = true := by
  have hget : (setBitAt bs j).getD (j / 8) 0 =
      (bs.getD (j / 8) 0) ||| (1 <<< (7 - j % 8)) := by
    rw [List.getD_eq_getD_get?, setBitAt, List.get?_set_eq_of_lt _ hlen]
    rfl
  rw [bitGet, hget, Nat.shiftLeft_eq, one_mul, Nat.testBit_lor, Nat.testBit_two_pow_self,
    Bool.or_true]

theorem bitGet_replicate_zero (n i : Nat) : bitGet (List.replicate n 0) i = false := by
  rw [bitGet]
  have : (List.replicate n (0 : Nat)).getD (i / 8) 0 = 0 := by
    rw [List.getD_eq_getD_get?]
    simp
  rw [this, Nat.zero_testBit]

theorem bitGet_append (m p : Bytes) (i : Nat) (h : i / 8 < m.length) :
    bitGet (m ++ p) i = bitGet m i := by
  rw [bitGet, List.getD_append _ _ _ _ h, bitGet]

end Badmerger

namespace Badmerger

/-- Whether a value field is treated as absent by the record writer:
`!ok || fieldValue == nil` in `extractKeysAndValues`. -/
def absentF (r : Rec) (f : Field) : Bool :=
  match recGet r f.name with
  | none => true
  | some v => v == Val.vnull

/-- The value-field loop of `extractKeysAndValues`: set bit `i` of the mask
header for an absent or nil field, otherwise append the encoded value. -/
def extractValuesLoop (r : Rec) : List Field → Nat → Bytes → Bytes
  | [], _, buf => buf
  | f :: fs, i, buf =>
    match recGet r f.name with
    | none => extractValuesLoop r fs (i + 1) (setBitAt buf i)
    | some v =>
      if v = Val.vnull then extractValuesLoop r fs (i + 1) (setBitAt buf i)
      else extractValuesLoop r fs (i + 1) (buf ++ encodeK f.kind v)

/-- The value byte-string of `extractKeysAndValues`: nil for a schema with
no value fields, otherwise the loop run on `masks` zero bytes. -/
def extractValues (values : List Field) (masks : Nat) (r : Rec) : Bytes :=
  if values.isEmpty then [] else extractValuesLoop r values 0 (List.replicate masks 0)

/-- The value fields present (and non-nil) in a record, with their values,
in schema order. -/
def presentFields (values : List Field) (r : Rec) : List (Field × Val) :=
  values.filterMap (fun f =>
    match recGet r f.name with
    | none => none
    | some v => if v = Val.vnull then none else some (f, v))

/-- Concatenated encodings of the present value fields: the payload part of
the value byte-string. -/
def payloadBytes (values : List Field) (r : Rec) : Bytes :=
  (presentFields values r).foldr (fun fv acc => encodeK fv.1.kind fv.2 ++ acc) []

/-- The mask-header part of the value byte-string in isolation. -/
def extractMaskLoop (r : Rec) : List Field → Nat → Bytes → Bytes
  | [], _, m => m
  | f :: fs, i, m =>
    match recGet r f.name with
    | none => extractMaskLoop r fs (i + 1) (setBitAt m i)
    | some v =>
      if v = Val.vnull then extractMaskLoop r fs (i + 1) (setBitAt m i)
      else extractMaskLoop r fs (i + 1) m

/-- The field loop of `Merger.RestoreValue`: skip fields whose mask bit is
set, decode the others from the running payload suffix. -/
def restoreValueLoop (head : Bytes) : List Field → Nat → Bytes → Rec → Option Rec
  | [], _, _, acc => some acc
  | f :: fs, i, body, acc =>
    match head.get? (i / 8) with
    | none => none
    | some hb =>
      if Nat.testBit hb (7 - i % 8) then restoreValueLoop head fs (i + 1) body acc
      else
        match decodeK f.kind body with
        | none => none
        | some (v, step) =>
          restoreValueLoop head fs (i + 1) (body.drop step) (recSet acc f.name v)

/-- `Merger.RestoreValue`: split the mask header off the value bytes (a
short slice is a panic) and run the field loop. -/
def restoreValue (masks : Nat) (values : List Field) (b : Bytes) : Option Rec :=
  if masks ≤ b.length then restoreValueLoop (b.take masks) values 0 (b.drop masks) []
  else none

end Badmerger

namespace Badmerger

theorem set_append_left {α : Type} (a : α) :
    ∀ (m p : List α) (n : Nat), n < m.length → (m ++ p).set n a = m.set n a ++ p := by
  intro m
  induction m with
  | nil => intro p n h; simp at h
  | cons x xs ih =>
    intro p n h
    cases n with
    | zero => simp [List.set]
    | succ n =>
      simp only [List.cons_append, List.set, List.append_eq]
      rw [ih p n (by simpa using Nat.lt_of_succ_lt_succ h)]

theorem setBitAt_append (m p : Bytes) (i : Nat) (h : i / 8 < m.length) :
    setBitAt (m ++ p) i = setBitAt m i ++ p := by
  rw [setBitAt, setBitAt, List.getD_append _ _ _ _ h, set_append_left _ _ _ _ h]

theorem extractMaskLoop_length (r : Rec) :
    ∀ (fs : List Field) (i : Nat) (m : Bytes),
      (extractMaskLoop r fs i m).length = m.length := by
  intro fs
  induction fs with
  | nil => intro i m; rfl
  | cons f fs ih =>
    intro i m
    cases hg : recGet r f.name with
    | none =>
      simp only [extractMaskLoop, hg]
      rw [ih, setBitAt_length]
    | some v =>
      by_cases hv : v = Val.vnull
      · simp only [extractMaskLoop, hg, if_pos hv]
        rw [ih, setBitAt_length]
      · simp only [extractMaskLoop, hg, if_neg hv]
        exact ih _ _

theorem presentFields_cons_absent (values : List Field) (r : Rec) (f : Field)
    (h : absentF r f = true) :
    presentFields (f :: values) r = presentFields values r := by
  cases hg : recGet r f.name with
  | none => simp only [presentFields, List.filterMap_cons, hg]
  | some v =>
    have hv : v = Val.vnull := by
      have h2 := h
      unfold absentF at h2
      rw [hg] at h2
      simpa using h2
    simp only [presentFields, List.filterMap_cons, hg, if_pos hv]

theorem presentFields_cons_present (values : List Field) (r : Rec) (f : Field) (v : Val)
    (hr : recGet r f.name = some v) (hv : v ≠ Val.vnull) :
    presentFields (f :: values) r = (f, v) :: presentFields values r := by
  simp only [presentFields, List.filterMap_cons, hr, if_neg hv]

theorem payloadBytes_cons_absent (values : List Field) (r : Rec) (f : Field)
    (h : absentF r f = true) :
    payloadBytes (f :: values) r = payloadBytes values r := by
  rw [payloadBytes, presentFields_cons_absent values r f h, payloadBytes]

theorem payloadBytes_cons_present (values : List Field) (r : Rec) (f : Field) (v : Val)
    (hr : recGet r f.name = some v) (hv : v ≠ Val.vnull) :
    payloadBytes (f :: values) r = encodeK f.kind v ++ payloadBytes values r := by
  rw [payloadBytes, presentFields_cons_present values r f v hr hv, List.foldr_cons, payloadBytes]

theorem extractValuesLoop_decomp (r : Rec) :
    ∀ (fs : List Field) (i : Nat) (m p : Bytes),
      (∀ j, j < fs.length → (i + j) / 8 < m.length) →
      extractValuesLoop r fs i (m ++ p) =
        extractMaskLoop r fs i m ++ (p ++ payloadBytes fs r) := by
  intro fs
  induction fs with
  | nil =>
    intro i m p _
    simp [extractValuesLoop, extractMaskLoop, payloadBytes, presentFields]
  | cons f fs ih =>
    intro i m p hr
    have h0 : i / 8 < m.length := by
      have := hr 0 (by simp)
      simpa using this
    have hshift : ∀ j, j < fs.length → (i + 1 + j) / 8 < (setBitAt m i).length := by
      intro j hj
      rw [setBitAt_length]
      have := hr (j + 1) (by simpa using Nat.succ_lt_succ hj)
      omega
    have hshift2 : ∀ j, j < fs.length → (i + 1 + j) / 8 < m.length := by
      intro j hj
      have := hr (j + 1) (by simpa using Nat.succ_lt_succ hj)
      omega
    cases hg : recGet r f.name with
    | none =>
      simp only [extractValuesLoop, extractMaskLoop, hg]
      rw [setBitAt_append m p i h0]
      rw [ih (i + 1) (setBitAt m i) p hshift]
      rw [payloadBytes_cons_absent fs r f (by simp [absentF, hg])]
    | some v =>
      by_cases hv : v = Val.vnull
      · simp only [extractValuesLoop, extractMaskLoop, hg, if_pos hv]
        rw [setBitAt_append m p i h0]
        rw [ih (i + 1) (setBitAt m i) p hshift]
        rw [payloadBytes_cons_absent fs r f (by simp [absentF, hg, hv])]
      · simp only [extractValuesLoop, extractMaskLoop, hg, if_neg hv]
        rw [List.append_assoc m p (encodeK f.kind v)]
        rw [ih (i + 1) m (p ++ encodeK f.kind v) hshift2]
        rw [payloadBytes_cons_present fs r f v hg hv, List.append_assoc]

end Badmerger

namespace Badmerger

theorem extractMaskLoop_bit_low (r : Rec) :
    ∀ (fs : List Field) (i0 : Nat) (m : Bytes) (i : Nat), i < i0 →
      bitGet (extractMaskLoop r fs i0 m) i = bitGet m i := by
  intro fs
  induction fs with
  | nil => intro i0 m i _; rfl
  | cons f fs ih =>
    intro i0 m i hlt
    cases hg : recGet r f.name with
    | none =>
      simp only [extractMaskLoop, hg]
      rw [ih (i0 + 1) _ i (by omega), bitGet_setBitAt_ne _ _ _ (by omega)]
    | some v =>
      by_cases hv : v = Val.vnull
      · simp only [extractMaskLoop, hg, if_pos hv]
        rw [ih (i0 + 1) _ i (by omega), bitGet_setBitAt_ne _ _ _ (by omega)]
      · simp only [extractMaskLoop, hg, if_neg hv]
        exact ih (i0 + 1) m i (by omega)

theorem extractMaskLoop_bit (r : Rec) :
    ∀ (fs : List Field) (i0 : Nat) (m : Bytes) (j : Nat) (hj : j < fs.length),
      (∀ t, t < fs.length → (i0 + t) / 8 < m.length) →
      bitGet (extractMaskLoop r fs i0 m) (i0 + j) =
        (absentF r (fs.get ⟨j, hj⟩) || bitGet m (i0 + j)) := by
  intro fs
  induction fs with
  | nil => intro i0 m j hj _; simp at hj
  | cons f fs ih =>
    intro i0 m j hj hrange
    have h0 : i0 / 8 < m.length := by
      have := hrange 0 (by simp)
      simpa using this
    cases j with
    | zero =>
      simp only [Nat.add_zero, List.get]
      cases hg : recGet r f.name with
      | none =>
        simp only [extractMaskLoop, hg]
        rw [extractMaskLoop_bit_low r fs (i0 + 1) _ i0 (by omega)]
        rw [bitGet_setBitAt_self m i0 h0]
        simp [absentF, hg]
      | some v =>
        by_cases hv : v = Val.vnull
        · simp only [extractMaskLoop, hg, if_pos hv]
          rw [extractMaskLoop_bit_low r fs (i0 + 1) _ i0 (by omega)]
          rw [bitGet_setBitAt_self m i0 h0]
          simp [absentF, hg, hv]
        · simp only [extractMaskLoop, hg, if_neg hv]
          rw [extractMaskLoop_bit_low r fs (i0 + 1) m i0 (by omega)]
          have : absentF r f = false := by
            simp [absentF, hg]
            exact hv
          rw [this, Bool.false_or]
    | succ j =>
      have hj2 : j < fs.length := by simpa using Nat.lt_of_succ_lt_succ hj
      have hstep : i0 + (j + 1) = (i0 + 1) + j := by omega
      have hrange2 : ∀ t, t < fs.length → ((i0 + 1) + t) / 8 < (setBitAt m i0).length := by
        intro t ht
        rw [setBitAt_length]
        have := hrange (t + 1) (by simpa using Nat.succ_lt_succ ht)
        omega
      have hrange3 : ∀ t, t < fs.length → ((i0 + 1) + t) / 8 < m.length := by
        intro t ht
        have := hrange (t + 1) (by simpa using Nat.succ_lt_succ ht)
        omega
      cases hg : recGet r f.name with
      | none =>
        simp only [extractMaskLoop, hg, hstep]
        rw [ih (i0 + 1) _ j hj2 hrange2]
        rw [bitGet_setBitAt_ne _ _ _ (by omega)]
        rfl
      | some v =>
        by_cases hv : v = Val.vnull
        · simp only [extractMaskLoop, hg, if_pos hv, hstep]
          rw [ih (i0 + 1) _ j hj2 hrange2]
          rw [bitGet_setBitAt_ne _ _ _ (by omega)]
          rfl
        · simp only [extractMaskLoop, hg, if_neg hv, hstep]
          rw [ih (i0 + 1) m j hj2 hrange3]
          rfl

end Badmerger

namespace Badmerger

theorem decodeK_extend (k : Kind) (b b2 : Bytes) (v : Val) (s : Nat)
    (h : decodeK k b = some (v, s)) :
    decodeK k (b.take s ++ b2) = some (v, s) := by
  cases k with
  | i8 => exact fromIntBinary_extend 1 _ b b2 v s h
  | i16 => exact fromIntBinary_extend 2 _ b b2 v s h
  | i32 => exact fromIntBinary_extend 4 _ b b2 v s h
  | i64 => exact fromIntBinary_extend 8 _ b b2 v s h
  | str => exact fromPrefixed_extend _ b b2 v s h
  | json => exact fromPrefixed_extend _ b b2 v s h

theorem goodVal_extend (k : Kind) (v : Val) (b2 : Bytes) (h : goodVal k v) :
    decodeK k (encodeK k v ++ b2) = some (v, (encodeK k v).length) := by
  have h2 := decodeK_extend k (encodeK k v) b2 v (encodeK k v).length h
  rwa [List.take_length] at h2

theorem restoreValueLoop_spec (r : Rec) (head : Bytes) :
    ∀ (fs : List Field) (i0 : Nat) (tailB : Bytes) (acc : Rec),
      (∀ j (hj : j < fs.length), (i0 + j) / 8 < head.length ∧
          bitGet head (i0 + j) = absentF r (fs.get ⟨j, hj⟩)) →
      (∀ fv ∈ presentFields fs r, goodVal fv.1.kind fv.2) →
      restoreValueLoop head fs i0 (payloadBytes fs r ++ tailB) acc =
        some ((presentFields fs r).foldl (fun a fv => recSet a fv.1.name fv.2) acc) := by
  intro fs
  induction fs with
  | nil =>
    intro i0 tailB acc _ _
    simp [restoreValueLoop, presentFields]
  | cons f fs ih =>
    intro i0 tailB acc hbits hgood
    obtain ⟨hin, hbit⟩ := hbits 0 (by simp)
    rw [Nat.add_zero] at hin hbit
    have hget : head.get? (i0 / 8) = some (head.getD (i0 / 8) 0) := by
      rw [List.getD_eq_getD_get?]
      cases hq : head.get? (i0 / 8) with
      | none =>
        rw [List.get?_eq_none] at hq
        omega
      | some hb => rfl
    have hbits2 : ∀ j (hj : j < fs.length), ((i0 + 1) + j) / 8 < head.length ∧
        bitGet head ((i0 + 1) + j) = absentF r (fs.get ⟨j, hj⟩) := by
      intro j hj
      have h2 := hbits (j + 1) (by simpa using Nat.succ_lt_succ hj)
      obtain ⟨h3, h4⟩ := h2
      constructor
      · omega
      · rw [show (i0 + 1) + j = i0 + (j + 1) by omega]
        exact h4
    have hcond : Nat.testBit (head.getD (i0 / 8) 0) (7 - i0 % 8) = absentF r f := hbit
    cases hab : absentF r f with
    | true =>
      have hct : Nat.testBit (head.getD (i0 / 8) 0) (7 - i0 % 8) = true := by
        rw [hcond, hab]
      simp only [restoreValueLoop, hget, hct, if_true]
      rw [payloadBytes_cons_absent fs r f hab, presentFields_cons_absent fs r f hab]
      exact ih (i0 + 1) tailB acc hbits2
        (by rwa [presentFields_cons_absent fs r f hab] at hgood)
    | false =>
      have hpres : ∃ v, recGet r f.name = some v ∧ v ≠ Val.vnull := by
        unfold absentF at hab
        cases hg : recGet r f.name with
        | none => rw [hg] at hab; simp at hab
        | some v =>
          rw [hg] at hab
          refine ⟨v, rfl, ?_⟩
          intro hv
          rw [hv] at hab
          simp at hab
      obtain ⟨v, hg, hv⟩ := hpres
      have hmem : (f, v) ∈ presentFields (f :: fs) r := by
        rw [presentFields_cons_present fs r f v hg hv]
        exact List.mem_cons_self _ _
      have hgv : goodVal f.kind v := hgood (f, v) hmem
      have hdec : decodeK f.kind (payloadBytes (f :: fs) r ++ tailB) =
          some (v, (encodeK f.kind v).length) := by
        rw [payloadBytes_cons_present fs r f v hg hv, List.append_assoc]
        exact goodVal_extend f.kind v _ hgv
      have hcf : Nat.testBit (head.getD (i0 / 8) 0) (7 - i0 % 8) = false := by
        rw [hcond, hab]
      simp only [restoreValueLoop, hget, hcf, Bool.false_eq_true, if_false, hdec]
      have hdrop : (payloadBytes (f :: fs) r ++ tailB).drop (encodeK f.kind v).length =
          payloadBytes fs r ++ tailB := by
        rw [payloadBytes_cons_present fs r f v hg hv, List.append_assoc, List.drop_left]
      rw [hdrop, presentFields_cons_present fs r f v hg hv, List.foldl_cons]
      exact ih (i0 + 1) tailB (recSet acc f.name v) hbits2
        (fun fv hfv => hgood fv (by
          rw [presentFields_cons_present fs r f v hg hv]
          exact List.mem_cons_of_mem _ hfv))

end Badmerger

namespace Badmerger

theorem recGet_foldl_set (l : List (Field × Val)) (acc : Rec) (k : String) :
    recGet (l.foldl (fun a fv => recSet a fv.1.name fv.2) acc) k =
      match l.reverse.find? (fun fv => fv.1.name == k) with
      | some fv => some fv.2
      | none => recGet acc k := by
  induction l generalizing acc with
  | nil => simp
  | cons fv l ih =>
    rw [List.foldl_cons, ih, List.reverse_cons, List.find?_append]
    cases hf : l.reverse.find? (fun x => x.1.name == k) with
    | some b => simp [hf]
    | none =>
      simp only [hf, Option.none_orElse]
      by_cases hk : fv.1.name = k
      · simp [recGet, recSet, List.lookup, hk]
      · have hb1 : (fv.1.name == k) = false := beq_eq_false_iff_ne.mpr hk
        have hb2 : (k == fv.1.name) = false := beq_eq_false_iff_ne.mpr (Ne.symm hk)
        simp [recGet, recSet, List.lookup, hb1, hb2, List.find?]

theorem exists_of_absentF_false (r : Rec) (f : Field) (h : absentF r f = false) :
    ∃ v, recGet r f.name = some v ∧ v ≠ Val.vnull := by
  unfold absentF at h
  cases hg : recGet r f.name with
  | none => rw [hg] at h; simp at h
  | some v =>
    rw [hg] at h
    refine ⟨v, rfl, ?_⟩
    intro hv
    rw [hv] at h
    simp at h

theorem mem_presentFields_facts (values : List Field) (r : Rec) (fv : Field × Val)
    (h : fv ∈ presentFields values r) :
    fv.1 ∈ values ∧ recGet r fv.1.name = some fv.2 ∧ fv.2 ≠ Val.vnull := by
  rw [presentFields, List.mem_filterMap] at h
  obtain ⟨f, hf, he⟩ := h
  cases hg : recGet r f.name with
  | none =>
    rw [hg] at he
    exact absurd he (by simp)
  | some v =>
    rw [hg] at he
    have he2 : (if v = Val.vnull then none else some (f, v)) = some fv := he
    by_cases hv : v = Val.vnull
    · rw [if_pos hv] at he2
      exact absurd he2 (by simp)
    · rw [if_neg hv] at he2
      have hfv : fv = (f, v) := by
        cases he2
        rfl
      subst hfv
      exact ⟨hf, hg, hv⟩

theorem presentFields_mem_of (values : List Field) (r : Rec) (f : Field) (v : Val)
    (hf : f ∈ values) (hg : recGet r f.name = some v) (hv : v ≠ Val.vnull) :
    (f, v) ∈ presentFields values r := by
  rw [presentFields, List.mem_filterMap]
  refine ⟨f, hf, ?_⟩
  rw [hg]
  show (if v = Val.vnull then none else some (f, v)) = some (f, v)
  rw [if_neg hv]

theorem presentFields_names_sublist (values : List Field) (r : Rec) :
    ((presentFields values r).map (fun fv => fv.1.name)).Sublist (values.map Field.name) := by
  induction values with
  | nil => simp [presentFields]
  | cons f fs ih =>
    cases hab : absentF r f with
    | true =>
      rw [presentFields_cons_absent fs r f hab]
      simp only [List.map_cons]
      exact ih.cons _
    | false =>
      obtain ⟨v, hg, hv⟩ := exists_of_absentF_false r f hab
      rw [presentFields_cons_present fs r f v hg hv]
      simp only [List.map_cons]
      exact ih.cons₂ _

theorem find?_unique_name (l : List (Field × Val)) (f : Field) (v : Val)
    (hnd : (l.map (fun fv => fv.1.name)).Nodup) (hmem : (f, v) ∈ l) :
    l.find? (fun fv => fv.1.name == f.name) = some (f, v) := by
  induction l with
  | nil => simp at hmem
  | cons x l ih =>
    rw [List.map_cons, List.nodup_cons] at hnd
    obtain ⟨hx, hnd2⟩ := hnd
    rcases List.mem_cons.mp hmem with heq | hmem2
    · rw [← heq]
      simp [List.find?]
    · have hxname : x.1.name ≠ f.name := by
        intro he
        apply hx
        rw [he]
        exact List.mem_map_of_mem (fun fv => fv.1.name) hmem2
      have hb : (x.1.name == f.name) = false := beq_eq_false_iff_ne.mpr hxname
      simp only [List.find?, hb]
      exact ih hnd2 hmem2

end Badmerger

namespace Badmerger

/-- C5: for a schema of value fields with distinct names and a record
whose present values each round-trip through their codec, the value
byte-string is the mask header followed by the encodings of exactly the
present fields; bit `i` (most-significant-first) is set exactly when value
field `i` is absent or nil; and decoding the value byte-string yields a
record where each absent field is missing and each present field reads back
its written value. -/
theorem c5_theorem (values : List Field) (r : Rec)
    (hne : values ≠ [])
    (hnodup : (values.map Field.name).Nodup)
    (hgood : ∀ fv ∈ presentFields values r, goodVal fv.1.kind fv.2) :
    extractValues values (masksWidth values.length) r =
        extractMaskLoop r values 0 (List.replicate (masksWidth values.length) 0) ++
          payloadBytes values r ∧
    (∀ j (hj : j < values.length),
        bitGet (extractValues values (masksWidth values.length) r) j =
          absentF r (values.get ⟨j, hj⟩)) ∧
    ∃ dec,
      restoreValue (masksWidth values.length) values
          (extractValues values (masksWidth values.length) r) = some dec ∧
      ∀ j (hj : j < values.length),
        recGet dec (values.get ⟨j, hj⟩).name =
          (if absentF r (values.get ⟨j, hj⟩) then none
           else recGet r (values.get ⟨j, hj⟩).name) := by
  have hrange : ∀ j, j < values.length →
      (0 + j) / 8 < (List.replicate (masksWidth values.length) (0 : Nat)).length := by
    intro j hj
    rw [List.length_replicate]
    unfold masksWidth
    omega
  have hmaskB := extractMaskLoop_length r values 0 (List.replicate (masksWidth values.length) 0)
  rw [List.length_replicate] at hmaskB
  have hdecomp : extractValues values (masksWidth values.length) r =
      extractMaskLoop r values 0 (List.replicate (masksWidth values.length) 0) ++
        payloadBytes values r := by
    rw [extractValues, if_neg (by simpa using hne)]
    have h0 : extractValuesLoop r values 0
        (List.replicate (masksWidth values.length) 0) =
        extractValuesLoop r values 0
          (List.replicate (masksWidth values.length) 0 ++ []) := by
      rw [List.append_nil]
    rw [h0, extractValuesLoop_decomp r values 0 _ [] hrange, List.nil_append]
  have hbit : ∀ j (hj : j < values.length),
      bitGet (extractValues values (masksWidth values.length) r) j =
        absentF r (values.get ⟨j, hj⟩) := by
    intro j hj
    rw [hdecomp, bitGet_append _ _ j (by rw [hmaskB]; unfold masksWidth; omega)]
    have h2 := extractMaskLoop_bit r values 0 (List.replicate (masksWidth values.length) 0)
      j hj hrange
    rw [Nat.zero_add] at h2
    rw [h2, bitGet_replicate_zero, Bool.or_false]
  refine ⟨hdecomp, hbit, ?_⟩
  have hlen : (extractValues values (masksWidth values.length) r).length =
      masksWidth values.length + (payloadBytes values r).length := by
    rw [hdecomp, List.length_append, hmaskB]
  have hmasks_le : masksWidth values.length ≤
      (extractValues values (masksWidth values.length) r).length := by
    omega
  have htake : (extractValues values (masksWidth values.length) r).take
      (masksWidth values.length) =
      extractMaskLoop r values 0 (List.replicate (masksWidth values.length) 0) := by
    rw [hdecomp]
    exact List.take_left' hmaskB
  have hdrop : (extractValues values (masksWidth values.length) r).drop
      (masksWidth values.length) = payloadBytes values r := by
    rw [hdecomp]
    exact List.drop_left' hmaskB
  have hbits : ∀ j (hj : j < values.length),
      (0 + j) / 8 <
        (extractMaskLoop r values 0 (List.replicate (masksWidth values.length) 0)).length ∧
      bitGet (extractMaskLoop r values 0 (List.replicate (masksWidth values.length) 0)) (0 + j) =
        absentF r (values.get ⟨j, hj⟩) := by
    intro j hj
    constructor
    · rw [hmaskB]
      unfold masksWidth
      omega
    · have h2 := extractMaskLoop_bit r values 0
        (List.replicate (masksWidth values.length) 0) j hj hrange
      rw [Nat.zero_add] at h2 ⊢
      rw [h2, bitGet_replicate_zero, Bool.or_false]
  have hspec := restoreValueLoop_spec r
    (extractMaskLoop r values 0 (List.replicate (masksWidth values.length) 0))
    values 0 [] [] hbits hgood
  rw [List.append_nil] at hspec
  refine ⟨(presentFields values r).foldl (fun a fv => recSet a fv.1.name fv.2) [], ?_, ?_⟩
  · rw [restoreValue, if_pos hmasks_le, htake, hdrop]
    exact hspec
  · intro j hj
    rw [recGet_foldl_set]
    cases hab : absentF r (values.get ⟨j, hj⟩) with
    | true =>
      rw [if_pos rfl]
      have hnone : (presentFields values r).reverse.find?
          (fun fv => fv.1.name == (values.get ⟨j, hj⟩).name) = none := by
        rw [List.find?_eq_none]
        intro fv hfv
        rw [List.mem_reverse] at hfv
        obtain ⟨hf1, hf2, hf3⟩ := mem_presentFields_facts values r fv hfv
        intro hbeq
        have hname : fv.1.name = (values.get ⟨j, hj⟩).name := by
          simpa using hbeq
        have heq : fv.1 = values.get ⟨j, hj⟩ :=
          List.inj_on_of_nodup_map hnodup hf1 (List.get_mem values j hj) hname
        rw [heq] at hf2
        have : absentF r (values.get ⟨j, hj⟩) = false := by
          unfold absentF
          rw [hf2]
          simpa using hf3
        rw [hab] at this
        exact absurd this (by simp)
      rw [hnone]
      rfl
    | false =>
      rw [if_neg (by simp)]
      obtain ⟨v, hg, hv⟩ := exists_of_absentF_false r (values.get ⟨j, hj⟩) hab
      have hmem : (values.get ⟨j, hj⟩, v) ∈ presentFields values r :=
        presentFields_mem_of values r _ v (List.get_mem values j hj) hg hv
      have hndrev : ((presentFields values r).reverse.map (fun fv => fv.1.name)).Nodup := by
        rw [List.map_reverse]
        rw [List.nodup_reverse]
        exact (presentFields_names_sublist values r).nodup hnodup
      have hfind := find?_unique_name (presentFields values r).reverse
        (values.get ⟨j, hj⟩) v hndrev (List.mem_reverse.mpr hmem)
      rw [hfind, hg]

end Badmerger

namespace Badmerger

/-- Concrete schema for the bitmask witness: int8, string and int32 value
fields. -/
def c5values : List Field := [⟨"a", .i8⟩, ⟨"b", .str⟩, ⟨"c", .i32⟩]

/-- Concrete record omitting value field `b`. -/
def c5rec : Rec := [("a", .vi8 5), ("c", .vi32 300)]

/-- C5 witness: the bitmask theorem applied to a concrete three-field
schema with the middle field absent. -/
theorem c5_witness :
    (c5values ≠ [] ∧ (c5values.map Field.name).Nodup ∧
      ∀ fv ∈ presentFields c5values c5rec, goodVal fv.1.kind fv.2) ∧
    (extractValues c5values (masksWidth c5values.length) c5rec =
        extractMaskLoop c5rec c5values 0 (List.replicate (masksWidth c5values.length) 0) ++
          payloadBytes c5values c5rec ∧
    (∀ j (hj : j < c5values.length),
        bitGet (extractValues c5values (masksWidth c5values.length) c5rec) j =
          absentF c5rec (c5values.get ⟨j, hj⟩)) ∧
    ∃ dec,
      restoreValue (masksWidth c5values.length) c5values
          (extractValues c5values (masksWidth c5values.length) c5rec) = some dec ∧
      ∀ j (hj : j < c5values.length),
        recGet dec (c5values.get ⟨j, hj⟩).name =
          (if absentF c5rec (c5values.get ⟨j, hj⟩) then none
           else recGet c5rec (c5values.get ⟨j, hj⟩).name)) :=
  ⟨⟨by decide, by decide, by decide⟩,
    c5_theorem c5values c5rec (by decide) (by decide) (by decide)⟩

end Badmerger

namespace Badmerger

/-- The iterator configuration a `Merger` carries: bitmask width, selected
partial key fields, all value fields, and the named aggregations. -/
structure Merger where
  masks : Nat
  partialKeys : List Field
  allValues : List Field
  aggs : List NamedAgg

/-- The offset loop of `Merger.RestoreKey`: decode each partial-key field
from the running offset, accumulating the decoded key map. -/
def restoreKeyLoop : List Field → Bytes → Nat → Rec → Option (Nat × Rec)
  | [], _, off, acc => some (off, acc)
  | k :: ks, b, off, acc =>
    match decodeK k.kind (b.drop off) with
    | none => none
    | some (v, step) => restoreKeyLoop ks b (off + step) (recSet acc k.name v)

/-- `Merger.RestoreKey`: the consumed key-byte prefix together with the
decoded partial-key record. -/
def restoreKey (m : Merger) (b : Bytes) : Option (Bytes × Rec) :=
  (restoreKeyLoop m.partialKeys b 0 []).map (fun p => (b.take p.1, p.2))

/-- The per-entry value handling of `Iterate`: skipped entirely when the
schema has no value fields (`Merger.NoValue`), otherwise the decoded
value-record is appended to the current group's buffer. -/
def handleValue (m : Merger) (vb : Bytes) (vals : List Rec) : Option (List Rec) :=
  if m.allValues.isEmpty then some vals
  else (restoreValue m.masks m.allValues vb).map (fun vr => vals ++ [vr])

/-- The entry loop of `Iterate` over badger's ascending iteration: state is
the previous partial-key bytes (`lastKeyBytes`), the previous decoded key
map (`none` models the nil `lastKeyMap`), the buffered value-records of the
current group, and the records already delivered to the callback.  A `none`
result is a runtime panic. -/
def iterLoop (m : Merger) :
    List (Bytes × Bytes) → Bytes → Option Rec → List Rec → List Rec → Option (List Rec)
  | [], _, lastKM, vals, out =>
    (mergeGo m.aggs lastKM vals).map (fun mr => out ++ [mr])
  | e :: rest, lastKB, lastKM, vals, out =>
    match restoreKey m e.1 with
    | none => none
    | some (currKB, keyMap) =>
      if lastKB = currKB then
        match handleValue m e.2 vals with
        | none => none
        | some vals2 => iterLoop m rest lastKB lastKM vals2 out
      else
        if 0 < lastKB.length then
          match mergeGo m.aggs lastKM vals with
          | none => none
          | some mr =>
            match handleValue m e.2 [] with
            | none => none
            | some vals2 => iterLoop m rest currKB (some keyMap) vals2 (out ++ [mr])
        else
          match handleValue m e.2 [] with
          | none => none
          | some vals2 => iterLoop m rest currKB (some keyMap) vals2 out

/-- `Iterate`: run the entry loop from the initial state (empty last key,
nil last key map, empty buffers) and return the records delivered to the
callback, or `none` for a runtime panic. -/
def iterGo (m : Merger) (entries : List (Bytes × Bytes)) : Option (List Rec) :=
  iterLoop m entries [] none [] []

/-- A merger with one partial key, no value fields and one `count`
aggregation: the configuration of the empty-store scenario. -/
def emptyStoreMerger : Merger :=
  { masks := 1, partialKeys := [⟨"k", .i32⟩], allValues := [],
    aggs := [⟨"c", .count, "x"⟩] }

/-- C7: the claim says iterating an empty store invokes the callback once
with every aggregator evaluated over an empty collection; instead, with any
aggregation configured, `Merge` assigns into the nil `lastKeyMap` and
panics before the callback ever runs (`none` in the model). -/
theorem c7_failing : iterGo emptyStoreMerger [] = none := rfl

/-- The outcome of one underlying `badger.Txn.Set` call: success, the
`ErrTxnTooBig` rollover signal, or any other failure. -/
inductive SetRes where
  | ok | tooBig | fail
  deriving DecidableEq, Repr

/-- State of an inserter: entries pending in the open transaction and
entries already committed. -/
structure TxnSim where
  pending : List (Bytes × Bytes)
  committed : List (Bytes × Bytes)
  deriving DecidableEq, Repr

/-- Effect of one `Set` call with a prescribed outcome: only a successful
call records the entry. -/
def applySet (res : SetRes) (st : TxnSim) (kv : Bytes × Bytes) : TxnSim :=
  match res with
  | .ok => { st with pending := st.pending ++ [kv] }
  | _ => st

/-- `Commit`: move the pending entries into the committed log. -/
def commitSim (st : TxnSim) : TxnSim :=
  { pending := [], committed := st.committed ++ st.pending }

/-- `badgerDbTxn.Insert` with the two `Set` outcomes prescribed by a
script: on `ErrTxnTooBig` the transaction is committed, reopened and the
write retried once (both the commit error and the retry error discarded);
any other `Set` outcome falls through; the function always returns `none`
(nil error) to its caller. -/
def badgerInsert (res1 res2 : SetRes) (st : TxnSim) (kv : Bytes × Bytes) :
    TxnSim × Option String :=
  match res1 with
  | .tooBig => (applySet res2 (commitSim st) kv, none)
  | r => (applySet r st kv, none)

/-- C9: the claim says a non-rollover failure of the underlying set is
surfaced as a non-nil error; instead `Insert` swallows it: with the first
`Set` failing (e.g. `ErrConflict`), `Insert` returns nil and the entry is
recorded nowhere. -/
theorem c9_failing :
    badgerInsert .fail .ok ⟨[], []⟩ ([1], [2]) = (⟨[], []⟩, none) := rfl

end Badmerger

namespace Badmerger

section Runs

variable {α : Type} {β : Type} [DecidableEq β]

/-- Split a list into maximal runs of consecutive elements sharing their
`f`-value: the grouping a changed-prefix scan induces. -/
def runsBy (f : α → β) : List α → List (List α)
  | [] => []
  | a :: l =>
    match runsBy f l with
    | [] => [[a]]
    | [] :: gs => [a] :: gs
    | (b :: g) :: gs =>
      if f a = f b then (a :: b :: g) :: gs else [a] :: (b :: g) :: gs

theorem runsBy_cons (f : α → β) (a : α) (l : List α) :
    ∃ g gs, runsBy f (a :: l) = (a :: g) :: gs ∧
      ∀ a2, f a2 = f a → runsBy f (a2 :: l) = (a2 :: g) :: gs := by
  cases hr : runsBy f l with
  | nil =>
    refine ⟨[], [], ?_, ?_⟩
    · simp [runsBy, hr]
    · intro a2 _
      simp [runsBy, hr]
  | cons g0 gs0 =>
    cases g0 with
    | nil =>
      refine ⟨[], gs0, ?_, ?_⟩
      · simp [runsBy, hr]
      · intro a2 _
        simp [runsBy, hr]
    | cons b g =>
      by_cases hf : f a = f b
      · refine ⟨b :: g, gs0, ?_, ?_⟩
        · simp [runsBy, hr, hf]
        · intro a2 ha2
          simp [runsBy, hr, ha2.trans hf]
      · refine ⟨[], (b :: g) :: gs0, ?_, ?_⟩
        · simp [runsBy, hr, hf]
        · intro a2 ha2
          have : ¬ f a2 = f b := by
            rw [ha2]
            exact hf
          simp [runsBy, hr, this]

theorem runsBy_join (f : α → β) : ∀ l : List α, (runsBy f l).join = l := by
  intro l
  induction l with
  | nil => rfl
  | cons a l ih =>
    cases hr : runsBy f l with
    | nil =>
      have : l = [] := by
        have h2 := ih
        rw [hr] at h2
        simpa using h2.symm
      simp [runsBy, hr, this]
    | cons g0 gs0 =>
      cases g0 with
      | nil =>
        have hl : l = gs0.join := by
          have h2 := ih
          rw [hr] at h2
          simpa using h2.symm
        simp [runsBy, hr, ← hl]
      | cons b g =>
        have hl : l = b :: g ++ gs0.join := by
          have h2 := ih
          rw [hr] at h2
          simpa using h2.symm
        by_cases hf : f a = f b
        · simp only [runsBy, hr, if_pos hf]
          simp [← hl]
        · simp only [runsBy, hr, if_neg hf]
          simp [← hl]

theorem runsBy_ne_nil (f : α → β) : ∀ (l : List α) (g : List α), g ∈ runsBy f l → g ≠ [] := by
  intro l
  induction l with
  | nil => intro g hg; simp [runsBy] at hg
  | cons a l ih =>
    intro g hg
    cases hr : runsBy f l with
    | nil =>
      simp only [runsBy, hr] at hg
      simp at hg
      simp [hg]
    | cons g0 gs0 =>
      cases g0 with
      | nil =>
        simp only [runsBy, hr] at hg
        rcases List.mem_cons.mp hg with h | h
        · simp [h]
        · exact ih g (by rw [hr]; exact List.mem_cons_of_mem _ h)
      | cons b g2 =>
        simp only [runsBy, hr] at hg
        by_cases hf : f a = f b
        · rw [if_pos hf] at hg
          rcases List.mem_cons.mp hg with h | h
          · simp [h]
          · exact ih g (by rw [hr]; exact List.mem_cons_of_mem _ h)
        · rw [if_neg hf] at hg
          rcases List.mem_cons.mp hg with h | h
          · simp [h]
          · exact ih g (by rw [hr]; exact h)

end Runs

end Badmerger

namespace Badmerger

section Runs2

variable {α : Type} {β : Type} [DecidableEq β]

theorem headD_mem {l : List α} (d : α) (h : l ≠ []) : l.headD d ∈ l := by
  cases l with
  | nil => exact absurd rfl h
  | cons a l => exact List.mem_cons_self _ _

theorem runsBy_mem_head (f : α → β) (d : α) :
    ∀ (l : List α) (g : List α), g ∈ runsBy f l → ∀ x ∈ g, f x = f (g.headD d) := by
  intro l
  induction l with
  | nil => intro g hg; simp [runsBy] at hg
  | cons a l ih =>
    intro g hg x hx
    cases hr : runsBy f l with
    | nil =>
      simp only [runsBy, hr] at hg
      simp only [List.mem_singleton] at hg
      subst hg
      simp only [List.mem_singleton] at hx
      subst hx
      rfl
    | cons g0 gs0 =>
      cases g0 with
      | nil =>
        exact absurd rfl (runsBy_ne_nil f l [] (by rw [hr]; exact List.mem_cons_self _ _))
      | cons b g2 =>
        simp only [runsBy, hr] at hg
        by_cases hf : f a = f b
        · rw [if_pos hf] at hg
          rcases List.mem_cons.mp hg with h | h
          · subst h
            rcases List.mem_cons.mp hx with h2 | h2
            · subst h2; rfl
            · have := ih (b :: g2) (by rw [hr]; exact List.mem_cons_self _ _) x h2
              simp only [List.headD_cons] at this ⊢
              rw [this, ← hf]
          · exact ih g (by rw [hr]; exact List.mem_cons_of_mem _ h) x hx
        · rw [if_neg hf] at hg
          rcases List.mem_cons.mp hg with h | h
          · subst h
            simp only [List.mem_singleton] at hx
            subst hx
            rfl
          · exact ih g (by rw [hr]; exact h) x hx

theorem runsBy_heads_nodup (f : α → β) (d : α) :
    ∀ l : List α,
      (∀ x y z : α, [x, y, z].Sublist l → f x = f z → f y = f x) →
      ((runsBy f l).map (fun g => f (g.headD d))).Nodup := by
  intro l
  induction l with
  | nil => intro _; simp [runsBy]
  | cons a l ih =>
    intro hsand
    have hsand2 : ∀ x y z : α, [x, y, z].Sublist l → f x = f z → f y = f x := by
      intro x y z hsub
      exact hsand x y z (hsub.cons a)
    have ih2 := ih hsand2
    cases hr : runsBy f l with
    | nil =>
      simp only [runsBy, hr]
      simp
    | cons g0 gs0 =>
      cases g0 with
      | nil =>
        exact absurd rfl (runsBy_ne_nil f l [] (by rw [hr]; exact List.mem_cons_self _ _))
      | cons b g2 =>
        have hjoin : l = (b :: g2) ++ gs0.join := by
          have h2 := runsBy_join f l
          rw [hr] at h2
          simpa using h2.symm
        rw [hr] at ih2
        simp only [List.map_cons, List.headD_cons, List.nodup_cons] at ih2
        obtain ⟨hbnot, hnd⟩ := ih2
        by_cases hf : f a = f b
        · simp only [runsBy, hr, if_pos hf, List.map_cons, List.headD_cons, List.nodup_cons]
          rw [hf]
          exact ⟨hbnot, hnd⟩
        · simp only [runsBy, hr, if_neg hf, List.map_cons, List.headD_cons, List.nodup_cons]
          refine ⟨?_, hbnot, hnd⟩
          intro hmem
          rcases List.mem_cons.mp hmem with hfb | hmem2
          · exact hf hfb
          · rw [List.mem_map] at hmem2
            obtain ⟨g, hg, hfg⟩ := hmem2
            have hgne : g ≠ [] :=
              runsBy_ne_nil f l g (by rw [hr]; exact List.mem_cons_of_mem _ hg)
            set z := g.headD d with hz
            have hzg : z ∈ g := headD_mem d hgne
            have hzjoin : z ∈ gs0.join := List.mem_join.mpr ⟨g, hg, hzg⟩
            have hsub : [a, b, z].Sublist (a :: l) := by
              rw [hjoin]
              refine List.Sublist.cons₂ a ?_
              refine List.Sublist.cons₂ b ?_
              rw [List.singleton_sublist]
              exact List.mem_append_right _ hzjoin
            have := hsand a b z hsub hfg.symm
            exact hf this.symm

theorem runsBy_length_card (f : α → β) (d : α) (l : List α)
    (hsand : ∀ x y z : α, [x, y, z].Sublist l → f x = f z → f y = f x) :
    (runsBy f l).length = (l.map f).toFinset.card := by
  have hnodup := runsBy_heads_nodup f d l hsand
  have hsets : ((runsBy f l).map (fun g => f (g.headD d))).toFinset = (l.map f).toFinset := by
    ext x
    simp only [List.mem_toFinset, List.mem_map]
    constructor
    · rintro ⟨g, hg, rfl⟩
      have hgne : g ≠ [] := runsBy_ne_nil f l g hg
      refine ⟨g.headD d, ?_, rfl⟩
      have : g.headD d ∈ (runsBy f l).join := List.mem_join.mpr ⟨g, hg, headD_mem d hgne⟩
      rwa [runsBy_join] at this
    · rintro ⟨y, hy, rfl⟩
      have hy2 : y ∈ (runsBy f l).join := by rwa [runsBy_join]
      obtain ⟨g, hg, hyg⟩ := List.mem_join.mp hy2
      exact ⟨g, hg, (runsBy_mem_head f d l g hg y hyg).symm⟩
  rw [← hsets, List.toFinset_card_of_nodup hnodup, List.length_map]

end Runs2

end Badmerger

namespace Badmerger

/-- An annotated entry for the grouping argument: its decoded partial-key
byte prefix, decoded partial-key record, and value-record contribution. -/
abbrev GItem := Bytes × Rec × List Rec

/-- The partial-key byte prefix `RestoreKey` consumes from an entry's key
bytes (garbage on decode failure, which the theorems exclude). -/
def prefixOf (m : Merger) (kb : Bytes) : Bytes :=
  ((restoreKey m kb).getD ([], [])).1

/-- The decoded partial-key record of an entry. -/
def keyMapOf (m : Merger) (kb : Bytes) : Rec :=
  ((restoreKey m kb).getD ([], [])).2

/-- The value-record contribution of one entry: nothing when the schema has
no value fields, otherwise the decoded value-record. -/
def valRecsOf (m : Merger) (vb : Bytes) : List Rec :=
  if m.allValues.isEmpty then [] else [(restoreValue m.masks m.allValues vb).getD []]

/-- Annotate an entry with prefix, key record and value contribution. -/
def annot (m : Merger) (e : Bytes × Bytes) : GItem :=
  (prefixOf m e.1, keyMapOf m e.1, valRecsOf m e.2)

/-- The merged record one group yields: the group head's decoded key record
merged with the aggregations over the group's value-records. -/
def mergeRun (aggs : List NamedAgg) (run : List GItem) : Rec :=
  mergeRec aggs ((run.headD ([], [], [])).2.1) ((run.map (fun t => t.2.2)).join)

/-- The records the entry loop emits from an in-group state `s` followed by
the annotated remaining entries: accumulate while the prefix repeats,
finalize at each prefix change and once at the end. -/
def emitGroups (aggs : List NamedAgg) : GItem → List GItem → List Rec
  | s, [] => [mergeRec aggs s.2.1 s.2.2]
  | s, x :: rest =>
    if x.1 = s.1 then emitGroups aggs (s.1, s.2.1, s.2.2 ++ x.2.2) rest
    else mergeRec aggs s.2.1 s.2.2 :: emitGroups aggs x rest

theorem runsBy_cons_eq {α β : Type} [DecidableEq β] (f : α → β) (a : α) (l : List α) :
    runsBy f (a :: l) =
      (match runsBy f l with
      | [] => [[a]]
      | [] :: gs => [a] :: gs
      | (b :: g) :: gs =>
        if f a = f b then (a :: b :: g) :: gs else [a] :: (b :: g) :: gs) := rfl

theorem emitGroups_runs (aggs : List NamedAgg) :
    ∀ (l : List GItem) (s : GItem),
      emitGroups aggs s l = (runsBy Prod.fst (s :: l)).map (mergeRun aggs) := by
  intro l
  induction l with
  | nil =>
    intro s
    simp [emitGroups, runsBy, mergeRun]
  | cons x rest ih =>
    intro s
    obtain ⟨g, gs, hx1, hx2⟩ := runsBy_cons (Prod.fst : GItem → Bytes) x rest
    by_cases hf : x.1 = s.1
    · rw [emitGroups, if_pos hf]
      rw [ih (s.1, s.2.1, s.2.2 ++ x.2.2)]
      have h1 : runsBy Prod.fst ((s.1, s.2.1, s.2.2 ++ x.2.2) :: rest) =
          ((s.1, s.2.1, s.2.2 ++ x.2.2) :: g) :: gs := hx2 _ hf.symm
      have h2 : runsBy Prod.fst (s :: x :: rest) = (s :: x :: g) :: gs := by
        rw [runsBy_cons_eq Prod.fst s (x :: rest), hx1]
        show (if s.1 = x.1 then (s :: x :: g) :: gs else [s] :: (x :: g) :: gs) = _
        rw [if_pos hf.symm]
      rw [h1, h2]
      simp only [List.map_cons]
      congr 1
      simp [mergeRun, List.append_assoc]
    · rw [emitGroups, if_neg hf]
      rw [ih x, hx1]
      have h2 : runsBy Prod.fst (s :: x :: rest) = [s] :: (x :: g) :: gs := by
        rw [runsBy_cons_eq Prod.fst s (x :: rest), hx1]
        show (if s.1 = x.1 then (s :: x :: g) :: gs else [s] :: (x :: g) :: gs) = _
        rw [if_neg (fun h => hf h.symm)]
      rw [h2]
      simp only [List.map_cons]
      congr 1
      simp [mergeRun]

end Badmerger

namespace Badmerger

theorem decodeK_extend_prefix (k : Kind) (d d2 : Bytes) (v : Val) (s : Nat)
    (h : decodeK k d = some (v, s)) (hpre : d.take s <+: d2) :
    decodeK k d2 = some (v, s) := by
  obtain ⟨t, rfl⟩ := hpre
  exact decodeK_extend k d t v s h

theorem prefix_drop {α : Type} {p q : List α} (n : Nat) (h : p <+: q) :
    p.drop n <+: q.drop n := by
  obtain ⟨t, rfl⟩ := h
  by_cases hn : n ≤ p.length
  · rw [List.drop_append_of_le_length hn]
    exact ⟨t, rfl⟩
  · rw [List.drop_eq_nil_of_le (by omega)]
    exact List.nil_prefix

theorem restoreKeyLoop_bounds :
    ∀ (ks : List Field) (b : Bytes) (off : Nat) (acc : Rec) (off2 : Nat) (acc2 : Rec),
      restoreKeyLoop ks b off acc = some (off2, acc2) →
      off ≤ off2 ∧ (ks = [] ∨ (off < off2 ∧ off2 ≤ b.length)) := by
  intro ks
  induction ks with
  | nil =>
    intro b off acc off2 acc2 h
    simp only [restoreKeyLoop, Option.some.injEq, Prod.mk.injEq] at h
    obtain ⟨h1, _⟩ := h
    exact ⟨by omega, Or.inl rfl⟩
  | cons k ks ih =>
    intro b off acc off2 acc2 h
    simp only [restoreKeyLoop] at h
    cases hd : decodeK k.kind (b.drop off) with
    | none => rw [hd] at h; exact absurd h (by simp)
    | some vs =>
      obtain ⟨v, s⟩ := vs
      rw [hd] at h
      have hpos := decodeK_pos k.kind (b.drop off) v s hd
      have hdroplen : (b.drop off).length = b.length - off := List.length_drop _ _
      obtain ⟨hle, hrest⟩ := ih b (off + s) _ off2 acc2 h
      refine ⟨by omega, Or.inr ?_⟩
      rcases hrest with hnil | ⟨hlt, hle2⟩
      · subst hnil
        simp only [restoreKeyLoop, Option.some.injEq, Prod.mk.injEq] at h
        obtain ⟨h1, _⟩ := h
        omega
      · omega

theorem restoreKeyLoop_det :
    ∀ (ks : List Field) (b b2 : Bytes) (off : Nat) (acc : Rec) (off2 : Nat) (acc2 : Rec),
      restoreKeyLoop ks b off acc = some (off2, acc2) →
      off2 ≤ b.length →
      b.take off2 <+: b2 →
      restoreKeyLoop ks b2 off acc = some (off2, acc2) := by
  intro ks
  induction ks with
  | nil =>
    intro b b2 off acc off2 acc2 h _ _
    simpa [restoreKeyLoop] using h
  | cons k ks ih =>
    intro b b2 off acc off2 acc2 h hlen hpre
    simp only [restoreKeyLoop] at h ⊢
    cases hd : decodeK k.kind (b.drop off) with
    | none => rw [hd] at h; exact absurd h (by simp)
    | some vs =>
      obtain ⟨v, s⟩ := vs
      rw [hd] at h
      have hpos := decodeK_pos k.kind (b.drop off) v s hd
      have hdroplen : (b.drop off).length = b.length - off := List.length_drop _ _
      have hb := restoreKeyLoop_bounds ks b (off + s) _ off2 acc2 h
      have hos2 : off + s ≤ off2 := hb.1
      have htake : (b.drop off).take s <+: b2.drop off := by
        have he : (b.take (off + s)).drop off = (b.drop off).take s := by
          rw [List.drop_take]
          congr 1
          omega
        rw [← he]
        have hp1 : b.take (off + s) <+: b.take off2 := by
          refine ⟨(b.take off2).drop (off + s), ?_⟩
          have h3 : (b.take off2).take (off + s) = b.take (off + s) := by
            rw [List.take_take, min_eq_left hos2]
          rw [← h3, List.take_append_drop]
        exact prefix_drop off (hp1.trans hpre)
      have hd2 : decodeK k.kind (b2.drop off) = some (v, s) :=
        decodeK_extend_prefix k.kind (b.drop off) (b2.drop off) v s hd htake
      rw [hd2]
      exact ih b b2 (off + s) _ off2 acc2 h hlen hpre

theorem restoreKey_det (m : Merger) (x y : Bytes) (px : Bytes) (kmx : Rec)
    (hx : restoreKey m x = some (px, kmx)) (hpre : px <+: y) :
    restoreKey m y = some (px, kmx) := by
  rw [restoreKey] at hx ⊢
  cases hl : restoreKeyLoop m.partialKeys x 0 [] with
  | none => rw [hl] at hx; exact absurd hx (by simp)
  | some p =>
    obtain ⟨off, km⟩ := p
    rw [hl] at hx
    simp only [Option.map_some', Option.some.injEq, Prod.mk.injEq] at hx
    obtain ⟨hpx, hkm⟩ := hx
    have hoff : off ≤ x.length := by
      obtain ⟨h1, h2⟩ := restoreKeyLoop_bounds m.partialKeys x 0 [] off km hl
      rcases h2 with hnil | ⟨_, hle⟩
      · rw [hnil] at hl
        simp only [restoreKeyLoop, Option.some.injEq, Prod.mk.injEq] at hl
        omega
      · exact hle
    have hpxlen : px.length = off := by
      rw [← hpx, List.length_take]
      omega
    have hl2 : restoreKeyLoop m.partialKeys y 0 [] = some (off, km) := by
      apply restoreKeyLoop_det m.partialKeys x y 0 [] off km hl hoff
      rw [hpx]
      exact hpre
    rw [hl2]
    simp only [Option.map_some', Option.some.injEq, Prod.mk.injEq]
    constructor
    · rw [← hpxlen]
      exact (List.prefix_iff_eq_take.mp hpre).symm
    · exact hkm

end Badmerger

namespace Badmerger

theorem lexLe_cons {a b : Nat} {xs ys : Bytes} :
    lexLe (a :: xs) (b :: ys) ↔ a < b ∨ (a = b ∧ lexLe xs ys) := by
  unfold lexLe
  constructor
  · rintro (h | h)
    · by_cases hab : a < b
      · exact Or.inl hab
      · by_cases heq : a = b
        · refine Or.inr ⟨heq, Or.inl ?_⟩
          simpa [lexLt, hab, heq] using h
        · exfalso
          simpa [lexLt, hab, heq] using h
    · have h2 : a = b ∧ xs = ys := by
        constructor
        · exact (List.cons.injEq .. ▸ h).1
        · exact (List.cons.injEq .. ▸ h).2
      exact Or.inr ⟨h2.1, Or.inr h2.2⟩
  · rintro (hab | ⟨heq, hle⟩)
    · left
      simp [lexLt, hab]
    · rcases hle with hlt | heq2
      · left
        simp [lexLt, heq, hlt]
      · right
        rw [heq, heq2]

theorem take_sandwich :
    ∀ (L : Nat) (x y z : Bytes), lexLe x y → lexLe y z →
      L ≤ x.length → L ≤ z.length → x.take L = z.take L →
      L ≤ y.length ∧ y.take L = x.take L := by
  intro L
  induction L with
  | zero =>
    intro x y z _ _ _ _ _
    simp
  | succ L ih =>
    intro x y z hxy hyz hx hz hxz
    cases x with
    | nil => simp at hx
    | cons a xs =>
      cases z with
      | nil => simp at hz
      | cons c zs =>
        simp only [List.take_succ_cons] at hxz
        have hac : a = c := (List.cons.injEq .. ▸ hxz).1
        have hxzt : xs.take L = zs.take L := (List.cons.injEq .. ▸ hxz).2
        cases y with
        | nil =>
          exfalso
          rcases hxy with h | h
          · simp [lexLt] at h
          · simp at h
        | cons b ys =>
          have h1 := lexLe_cons.mp hxy
          have h2 := lexLe_cons.mp hyz
          have hb : a = b := by
            rcases h1 with h1 | ⟨h1, _⟩
            · rcases h2 with h2 | ⟨h2, _⟩ <;> omega
            · exact h1
          have hyzs : lexLe ys zs := by
            rcases h2 with h2 | ⟨_, h2⟩
            · exfalso
              omega
            · exact h2
          have hxys : lexLe xs ys := by
            rcases h1 with h1 | ⟨_, h1⟩
            · exfalso
              omega
            · exact h1
          have hlx : L ≤ xs.length := by simpa using hx
          have hlz : L ≤ zs.length := by simpa using hz
          obtain ⟨hyl, hyt⟩ := ih xs ys zs hxys hyzs hlx hlz hxzt
          constructor
          · simpa using Nat.succ_le_succ hyl
          · simp only [List.take_succ_cons]
            rw [hyt, hb]

theorem restoreKey_shape (m : Merger) (b : Bytes) (p : Bytes) (km : Rec)
    (h : restoreKey m b = some (p, km)) :
    ∃ off, p = b.take off ∧ off ≤ b.length ∧ p.length = off := by
  rw [restoreKey] at h
  cases hl : restoreKeyLoop m.partialKeys b 0 [] with
  | none => rw [hl] at h; exact absurd h (by simp)
  | some pr =>
    obtain ⟨off, km2⟩ := pr
    rw [hl] at h
    simp only [Option.map_some', Option.some.injEq, Prod.mk.injEq] at h
    obtain ⟨hp, _⟩ := h
    have hoff : off ≤ b.length := by
      obtain ⟨h1, h2⟩ := restoreKeyLoop_bounds m.partialKeys b 0 [] off km2 hl
      rcases h2 with hnil | ⟨_, hle⟩
      · rw [hnil] at hl
        simp only [restoreKeyLoop, Option.some.injEq, Prod.mk.injEq] at hl
        omega
      · exact hle
    refine ⟨off, hp.symm, hoff, ?_⟩
    rw [← hp, List.length_take]
    omega

theorem restoreKey_prefix_ne_nil (m : Merger) (hpk : m.partialKeys ≠ []) (kb p : Bytes)
    (km : Rec) (h : restoreKey m kb = some (p, km)) : p ≠ [] := by
  rw [restoreKey] at h
  cases hl : restoreKeyLoop m.partialKeys kb 0 [] with
  | none => rw [hl] at h; exact absurd h (by simp)
  | some pr =>
    obtain ⟨off, km2⟩ := pr
    rw [hl] at h
    simp only [Option.map_some', Option.some.injEq, Prod.mk.injEq] at h
    obtain ⟨hp, _⟩ := h
    obtain ⟨h1, h2⟩ := restoreKeyLoop_bounds m.partialKeys kb 0 [] off km2 hl
    rcases h2 with hnil | ⟨hpos, hle⟩
    · exact absurd hnil hpk
    · rw [← hp]
      intro hcon
      have h3 := congrArg List.length hcon
      rw [List.length_take, List.length_nil] at h3
      omega

theorem prefix_sandwich (m : Merger) (x y z : Bytes)
    (hxy : lexLe x y) (hyz : lexLe y z)
    (px py pz : Bytes) (kmx kmy kmz : Rec)
    (hx : restoreKey m x = some (px, kmx)) (hy : restoreKey m y = some (py, kmy))
    (hz : restoreKey m z = some (pz, kmz)) (hpe : px = pz) :
    py = px := by
  obtain ⟨offx, hpx, hox, hlx⟩ := restoreKey_shape m x px kmx hx
  obtain ⟨offz, hpz, hoz, hlz⟩ := restoreKey_shape m z pz kmz hz
  have hoffeq : offx = offz := by
    rw [← hlx, ← hlz, hpe]
  obtain ⟨hyl, hyt⟩ := take_sandwich offx x y z hxy hyz hox (by omega) (by rw [← hpx, hpe, hpz, hoffeq])
  have hpre : px <+: y := by
    rw [hpx, ← hyt]
    exact List.take_prefix _ _
  have hdet := restoreKey_det m x y px kmx hx hpre
  rw [hy] at hdet
  have h4 := (Prod.mk.injEq .. ▸ Option.some.inj hdet)
  exact h4.1

theorem sublist_of_map_sublist {α β : Type} (g : α → β) :
    ∀ (l2 : List β) (l : List α), l2.Sublist (l.map g) →
      ∃ l0 : List α, List.Sublist l0 l ∧ l0.map g = l2 := by
  intro l2 l
  induction l generalizing l2 with
  | nil =>
    intro h
    rw [List.map_nil] at h
    refine ⟨[], List.Sublist.refl [], ?_⟩
    rw [List.sublist_nil.mp h]
    rfl
  | cons a t ih =>
    intro h
    rw [List.map_cons] at h
    cases h with
    | cons _ h2 =>
      obtain ⟨l0, hs, he⟩ := ih _ h2
      exact ⟨l0, hs.cons a, he⟩
    | cons₂ _ h2 =>
      obtain ⟨l0, hs, he⟩ := ih _ h2
      exact ⟨a :: l0, hs.cons₂ a, by rw [List.map_cons, he]⟩

theorem prefixOf_eq (m : Merger) (kb : Bytes) (p : Bytes) (km : Rec)
    (h : restoreKey m kb = some (p, km)) : prefixOf m kb = p := by
  simp [prefixOf, h]

theorem keyMapOf_eq (m : Merger) (kb : Bytes) (p : Bytes) (km : Rec)
    (h : restoreKey m kb = some (p, km)) : keyMapOf m kb = km := by
  simp [keyMapOf, h]

end Badmerger

namespace Badmerger

theorem annot_sandwich (m : Merger) (entries : List (Bytes × Bytes))
    (hdec : ∀ e ∈ entries, (restoreKey m e.1).isSome = true)
    (hsorted : List.Pairwise (fun e1 e2 => lexLe e1.1 e2.1) entries) :
    ∀ x y z : GItem, [x, y, z].Sublist (entries.map (annot m)) →
      x.1 = z.1 → y.1 = x.1 := by
  intro x y z hsub hxz
  obtain ⟨l0, hs, he⟩ := sublist_of_map_sublist (annot m) [x, y, z] entries hsub
  rcases l0 with _ | ⟨e1, l1⟩
  · simp at he
  rcases l1 with _ | ⟨e2, l2⟩
  · simp at he
  rcases l2 with _ | ⟨e3, l3⟩
  · simp at he
  rcases l3 with _ | ⟨e4, l4⟩
  case cons.cons.cons.cons => simp at he
  simp only [List.map_cons, List.map_nil, List.cons.injEq, and_true] at he
  obtain ⟨he1, he2, he3⟩ := he
  have hm1 : e1 ∈ entries := hs.subset (by simp)
  have hm2 : e2 ∈ entries := hs.subset (by simp)
  have hm3 : e3 ∈ entries := hs.subset (by simp)
  obtain ⟨pr1, h1⟩ := Option.isSome_iff_exists.mp (hdec e1 hm1)
  obtain ⟨p1, km1⟩ := pr1
  obtain ⟨pr2, h2⟩ := Option.isSome_iff_exists.mp (hdec e2 hm2)
  obtain ⟨p2, km2⟩ := pr2
  obtain ⟨pr3, h3⟩ := Option.isSome_iff_exists.mp (hdec e3 hm3)
  obtain ⟨p3, km3⟩ := pr3
  have hp := hsorted.sublist hs
  rw [List.pairwise_cons] at hp
  obtain ⟨hr1, hp2⟩ := hp
  rw [List.pairwise_cons] at hp2
  obtain ⟨hr2, _⟩ := hp2
  have r12 : lexLe e1.1 e2.1 := hr1 e2 (by simp)
  have r23 : lexLe e2.1 e3.1 := hr2 e3 (by simp)
  have hx1 : x.1 = p1 := by
    rw [← he1, annot, prefixOf_eq m e1.1 p1 km1 h1]
  have hy1 : y.1 = p2 := by
    rw [← he2, annot, prefixOf_eq m e2.1 p2 km2 h2]
  have hz1 : z.1 = p3 := by
    rw [← he3, annot, prefixOf_eq m e3.1 p3 km3 h3]
  have hpe : p1 = p3 := by
    rw [← hx1, ← hz1]
    exact hxz
  have := prefix_sandwich m e1.1 e2.1 e3.1 r12 r23 p1 p2 p3 km1 km2 km3 h1 h2 h3 hpe
  rw [hy1, hx1, this]

theorem handleValue_eq (m : Merger) (vb : Bytes) (vals : List Rec)
    (h : ¬ m.allValues.isEmpty → (restoreValue m.masks m.allValues vb).isSome = true) :
    handleValue m vb vals = some (vals ++ valRecsOf m vb) := by
  by_cases he : m.allValues.isEmpty
  · simp [handleValue, valRecsOf, he]
  · have h2 := h he
    cases hv : restoreValue m.masks m.allValues vb with
    | none => rw [hv] at h2; simp at h2
    | some vr => simp [handleValue, valRecsOf, he, hv]

theorem iterLoop_emits (m : Merger) (hpk : m.partialKeys ≠ []) :
    ∀ (rest : List (Bytes × Bytes)) (p : Bytes) (km : Rec) (vals out : List Rec),
      p ≠ [] →
      (∀ e ∈ rest, (restoreKey m e.1).isSome = true ∧
          (¬ m.allValues.isEmpty → (restoreValue m.masks m.allValues e.2).isSome = true)) →
      iterLoop m rest p (some km) vals out =
        some (out ++ emitGroups m.aggs (p, km, vals) (rest.map (annot m))) := by
  intro rest
  induction rest with
  | nil =>
    intro p km vals out hp _
    simp [iterLoop, mergeGo, emitGroups]
  | cons e rest ih =>
    intro p km vals out hp hdec
    obtain ⟨hk, hv⟩ := hdec e (List.mem_cons_self _ _)
    obtain ⟨pr, hkey⟩ := Option.isSome_iff_exists.mp hk
    obtain ⟨cp, ckm⟩ := pr
    have hcpne : cp ≠ [] := restoreKey_prefix_ne_nil m hpk e.1 cp ckm hkey
    have hannot : annot m e = (cp, ckm, valRecsOf m e.2) := by
      rw [annot, prefixOf_eq m e.1 cp ckm hkey, keyMapOf_eq m e.1 cp ckm hkey]
    have hdec2 : ∀ e2 ∈ rest, (restoreKey m e2.1).isSome = true ∧
        (¬ m.allValues.isEmpty → (restoreValue m.masks m.allValues e2.2).isSome = true) :=
      fun e2 he2 => hdec e2 (List.mem_cons_of_mem _ he2)
    simp only [List.map_cons, hannot]
    by_cases hpc : p = cp
    · simp only [iterLoop, hkey, handleValue_eq m e.2 vals hv]
      rw [if_pos hpc]
      rw [ih p km (vals ++ valRecsOf m e.2) out hp hdec2]
      simp only [emitGroups]
      rw [if_pos hpc.symm]
    · simp only [iterLoop, hkey, handleValue_eq m e.2 [] hv]
      rw [if_neg hpc]
      rw [if_pos (by cases p with | nil => exact absurd rfl hp | cons a l => simp)]
      simp only [mergeGo]
      rw [ih cp ckm ([] ++ valRecsOf m e.2) (out ++ [mergeRec m.aggs km vals]) hcpne hdec2]
      simp only [emitGroups]
      rw [if_neg (fun hcon => hpc hcon.symm)]
      simp only [List.nil_append]
      rw [List.append_assoc]
      rfl

end Badmerger

namespace Badmerger

/-- C1 (amended): for a nonempty sequence of entries in ascending
key-byte order, a nonempty partial-key selection, and entries whose key
(and, when value fields exist, value) bytes decode, `Iterate` emits exactly
the per-run merged records — one per maximal run of equal partial-key byte
prefixes — each aggregated over exactly the decoded value-records of that
run's entries, and the number of emitted records equals the number of
distinct partial-key prefixes. -/
theorem c1_theorem (m : Merger) (entries : List (Bytes × Bytes))
    (hne : entries ≠ [])
    (hpk : m.partialKeys ≠ [])
    (hdec : ∀ e ∈ entries, (restoreKey m e.1).isSome = true ∧
        (¬ m.allValues.isEmpty → (restoreValue m.masks m.allValues e.2).isSome = true))
    (hsorted : List.Pairwise (fun e1 e2 => lexLe e1.1 e2.1) entries) :
    iterGo m entries =
      some ((runsBy Prod.fst (entries.map (annot m))).map (mergeRun m.aggs)) ∧
    ((runsBy Prod.fst (entries.map (annot m))).map (mergeRun m.aggs)).length =
      ((entries.map (fun e => prefixOf m e.1)).toFinset).card := by
  constructor
  · cases entries with
    | nil => exact absurd rfl hne
    | cons e rest =>
      obtain ⟨hk, hv⟩ := hdec e (List.mem_cons_self _ _)
      obtain ⟨pr, hkey⟩ := Option.isSome_iff_exists.mp hk
      obtain ⟨cp, ckm⟩ := pr
      have hcpne : cp ≠ [] := restoreKey_prefix_ne_nil m hpk e.1 cp ckm hkey
      have hannot : annot m e = (cp, ckm, valRecsOf m e.2) := by
        rw [annot, prefixOf_eq m e.1 cp ckm hkey, keyMapOf_eq m e.1 cp ckm hkey]
      have hdec2 : ∀ e2 ∈ rest, (restoreKey m e2.1).isSome = true ∧
          (¬ m.allValues.isEmpty → (restoreValue m.masks m.allValues e2.2).isSome = true) :=
        fun e2 he2 => hdec e2 (List.mem_cons_of_mem _ he2)
      rw [iterGo]
      simp only [iterLoop, hkey, handleValue_eq m e.2 [] hv]
      rw [if_neg (fun hcon => hcpne hcon.symm)]
      rw [if_neg (by simp)]
      rw [iterLoop_emits m hpk rest cp ckm ([] ++ valRecsOf m e.2) [] hcpne hdec2]
      rw [List.nil_append, List.nil_append]
      rw [emitGroups_runs]
      simp only [List.map_cons, hannot]
  · have hsand := annot_sandwich m entries (fun e he => (hdec e he).1) hsorted
    have hcount := runsBy_length_card (Prod.fst : GItem → Bytes) ([], [], [])
      (entries.map (annot m)) hsand
    rw [List.length_map, hcount, List.map_map]
    rfl

end Badmerger

namespace Badmerger

instance (x y : Bytes) : Decidable (lexLe x y) := by
  unfold lexLe
  infer_instance

/-- Merger with one partial key field, no value fields, no aggregations. -/
def c1mergerA : Merger :=
  { masks := 1, partialKeys := [⟨"k", .i8⟩], allValues := [], aggs := [] }

/-- Merger with an empty partial-key selection, one value field and one
aggregation. -/
def c1mergerB : Merger :=
  { masks := 1, partialKeys := [], allValues := [⟨"v", .i8⟩],
    aggs := [⟨"c", .count, "x"⟩] }

/-- C1 counterexample: the claim as stated fails at the boundary cases
its quantifiers include.  On an empty entry sequence `Iterate` still emits
one record (zero distinct prefixes); and with the empty prefix selection
(a prefix of every key schema) plus an aggregation, the first entry never
triggers the changed-prefix branch, `lastKeyMap` stays nil and the final
`Merge` panics. -/
theorem c1_counterexample :
    iterGo c1mergerA [] = some [[]] ∧
    iterGo c1mergerB [([5], [0, 3])] = none := by
  constructor
  · rfl
  · decide

/-- Concrete merger for the grouping witness: one int8 partial key field,
one int8 value field, one sum aggregation. -/
def c1merger : Merger :=
  { masks := 1, partialKeys := [⟨"k", .i8⟩], allValues := [⟨"v", .i8⟩],
    aggs := [⟨"s", .sum, "v"⟩] }

/-- Concrete sorted entries for the grouping witness: two entries share the
partial-key prefix `[1]`, one has prefix `[2]`. -/
def c1entries : List (Bytes × Bytes) :=
  [([1, 7], [0, 10]), ([1, 9], [0, 20]), ([2, 5], [0, 30])]

/-- C1 witness: the grouping theorem applied to three sorted entries
forming two groups under an int8 partial key with a sum aggregation. -/
theorem c1_witness :
    (c1entries ≠ [] ∧ c1merger.partialKeys ≠ [] ∧
      (∀ e ∈ c1entries, (restoreKey c1merger e.1).isSome = true ∧
        (¬ c1merger.allValues.isEmpty →
          (restoreValue c1merger.masks c1merger.allValues e.2).isSome = true)) ∧
      List.Pairwise (fun e1 e2 => lexLe e1.1 e2.1) c1entries) ∧
    (iterGo c1merger c1entries =
        some ((runsBy Prod.fst (c1entries.map (annot c1merger))).map
          (mergeRun c1merger.aggs)) ∧
      ((runsBy Prod.fst (c1entries.map (annot c1merger))).map
          (mergeRun c1merger.aggs)).length =
        ((c1entries.map (fun e => prefixOf c1merger e.1)).toFinset).card) :=
  ⟨⟨by decide, by decide, by decide, by decide⟩,
    c1_theorem c1merger c1entries (by decide) (by decide) (by decide) (by decide)⟩

end Badmerger
